import Mathlib

/-!
Verification of the church duty scheduling engine.

This file gives a shallow embedding of the Go scheduler (`generate` and its
helpers) and proves the specified properties about it.  Conventions of the
embedding:

* Dates (`time.Time` values that are always whole days here) are modelled as
  natural numbers; `sameDay` is therefore plain equality, and the zero
  `time.Time` used for "no previous Sunday" is modelled by `Option.none`.
* Go maps used as sets (`map[string]bool`) are modelled as `List String` with
  membership; maps used as dictionaries (`lastAssigned`, the nested
  `Assignment` maps) are modelled as total functions updated pointwise, with
  the empty list standing for a missing key.
* The process-wide `math/rand` source is modelled as a deterministic stream
  of naturals (`Rng`); `rand.Shuffle` is a generator-driven Fisher–Yates
  shuffle (`shuffle`), which, like the original, always produces a
  permutation of its input.  The engine's properties are independent of the
  particular permutation drawn.
* Go string helpers (`strings.ToLower`, `strings.TrimSpace`,
  `strings.HasPrefix`, `strings.Contains`, `sort.Strings`) are implemented
  on the character lists underlying `String` so that all definitions are
  executable by the kernel.
* The package-level flag values read by the engine (`strictComposition`,
  `noRelaxB2B`, the max counts and the composition patterns) are collected
  in an explicit `Config` record threaded to the functions that read them.
-/

namespace Scheduler

/-! ### String helpers (strings.TrimSpace, strings.ToLower, …) -/

/-- `strings.TrimSpace` on the underlying character list. -/
def trimChars (l : List Char) : List Char :=
  ((l.dropWhile Char.isWhitespace).reverse.dropWhile Char.isWhitespace).reverse

/-- `strings.ToLower` on the underlying character list. -/
def lowerChars (l : List Char) : List Char := l.map Char.toLower

/-- `strings.ToLower (strings.TrimSpace s)`, the `normKey` helper of the Go code. -/
def normKey (s : String) : String := String.mk (lowerChars (trimChars s.data))

/-- `strings.ToLower (strings.TrimSpace s)` as a string-level helper (same as
`normKey`, named for use where the Go code inlines the two calls). -/
def lowerTrim (s : String) : String := String.mk (lowerChars (trimChars s.data))

/-- Does `l` begin with `pat`?  (`strings.HasPrefix`.) -/
def beginsWith : List Char → List Char → Bool
  | _, [] => true
  | [], _ :: _ => false
  | a :: as, b :: bs => a == b && beginsWith as bs

/-- Does `l` contain `pat` as a contiguous substring?  (`strings.Contains`.) -/
def containsSub (pat : List Char) : List Char → Bool
  | [] => beginsWith [] pat
  | c :: rest => beginsWith (c :: rest) pat || containsSub pat rest

/-- `strings.HasPrefix s pre`. -/
def strHas (s pre : String) : Bool := beginsWith s.data pre.data

/-- `strings.Contains s sub`. -/
def strContains (s sub : String) : Bool := containsSub sub.data s.data

/-- Lexicographic `≤` on character lists, the order used by `sort.Strings`. -/
def charsLe : List Char → List Char → Bool
  | [], _ => true
  | _ :: _, [] => false
  | a :: as, b :: bs => if a < b then true else if b < a then false else charsLe as bs

/-- Lexicographic `≤` on strings (the order of `sort.Strings`). -/
def strLe (s t : String) : Bool := charsLe s.data t.data

/-- Insert a string into a `strLe`-sorted list, keeping it sorted. -/
def insertSorted (s : String) : List String → List String
  | [] => [s]
  | t :: rest => if strLe s t then s :: t :: rest else t :: insertSorted s rest

/-- `sort.Strings`: insertion sort by the lexicographic order. -/
def sortStrings : List String → List String
  | [] => []
  | s :: rest => insertSorted s (sortStrings rest)

/-! ### Data model -/

/-- A `MappingRole` row (Go `RoleMap`): role label, eligibility source column,
service scope (`"07"`, `"10"` or `"both"`) and optional explicit slot counts. -/
structure RoleMap where
  Role : String
  SourceColumn : String
  Service : String
  Slots07 : Nat
  Slots10 : Nat
deriving DecidableEq, Repr

/-- A roster member (Go `Person`): name, elder flag (`IsPenatua`) and the map
from normalized eligibility keys to eligibility marks. -/
structure Person where
  Name : String
  IsPenatua : Bool
  Marks : List (String × Bool)
deriving DecidableEq, Repr

/-- Lookup in the `Marks` map (`p.Marks[key]`, returning the value and
whether the key is present). -/
def lookupMarks : List (String × Bool) → String → Option Bool
  | [], _ => none
  | (k, v) :: rest, key => if k = key then some v else lookupMarks rest key

/-! ### Pseudorandom source and shuffling -/

/-- The process-wide `math/rand` source, modelled as a deterministic stream:
`f` gives the raw draw at each step, `idx` is the current position. -/
structure Rng where
  f : Nat → Nat
  idx : Nat

/-- One bounded draw (`rand.Intn bound`): the next stream value reduced
modulo `bound`, advancing the stream. -/
def Rng.next (r : Rng) (bound : Nat) : Nat × Rng :=
  (if bound = 0 then 0 else r.f r.idx % bound, ⟨r.f, r.idx + 1⟩)

/-- Remove the element at index `j` (used by the shuffle); `none` when `j`
is out of range. -/
def pickIdx : List α → Nat → Option (α × List α)
  | [], _ => none
  | a :: l, 0 => some (a, l)
  | a :: l, n + 1 =>
    match pickIdx l n with
    | some (b, l') => some (b, a :: l')
    | none => none

/-- Generator-driven Fisher–Yates: repeatedly draw an index into the
remaining list and move that element to the output.  `fuel` starts at the
list length, so the whole list is consumed. -/
def shuffleAux : Nat → Rng → List α → List α × Rng
  | 0, r, l => (l, r)
  | n + 1, r, l =>
    let jr := r.next l.length
    match pickIdx l jr.1 with
    | some (a, l') =>
      let rest := shuffleAux n jr.2 l'
      (a :: rest.1, rest.2)
    | none => (l, jr.2)

/-- `rand.Shuffle`: permute a list using draws from the generator. -/
def shuffle (r : Rng) (l : List α) : List α × Rng := shuffleAux l.length r l

/-! ### Eligibility index -/

/-- `filterCandidates`: names of every person whose mark for the normalized
`src` key is present and true, optionally restricted to elders
(`mustPenatua`); collected as a set and then sorted (`sort.Strings`). -/
def filterCandidates (people : List Person) (src : String) (mustPenatua : Bool) :
    List String :=
  sortStrings
    (((people.filter fun p =>
        (!mustPenatua || p.IsPenatua) &&
          lookupMarks p.Marks (normKey src) == some true).map Person.Name).dedup)

/-- `filterCandidatesSplit`: the same filter, partitioned into elder names and
member names, in roster order (no sorting here; the caller dedups/sorts). -/
def filterCandidatesSplit (people : List Person) (src : String) :
    List String × List String :=
  ((people.filter fun p =>
      p.IsPenatua && lookupMarks p.Marks (normKey src) == some true).map Person.Name,
   (people.filter fun p =>
      !p.IsPenatua && lookupMarks p.Marks (normKey src) == some true).map Person.Name)

/-- `uniq`: deduplicate and then sort (`sort.Strings` is applied at the end
of the Go helper). -/
def uniq (l : List String) : List String := sortStrings l.dedup

/-! ### Role classification -/

/-- `baseRole`: canonical category of a role label (prefix match for the four
simple groups, substring match for the duty-member composition group). -/
def baseRole (role : String) : String :=
  let r := lowerTrim role
  if strHas r "lektor" then "lektor"
  else if strHas r "prokantor" then "prokantor"
  else if strHas r "pemusik" then "pemusik"
  else if strHas r "kolektan" then "kolektan"
  else if strContains r "pjemaat" || strContains r "p. jemaat" then "pjemaat"
  else r

/-- `isMajelisPendamping`: the escort category test — the lower-cased label
contains both the `"majel"` and the `"pend"` marker. -/
def isMajelisPendamping (role : String) : Bool :=
  let r := String.mk (lowerChars role.data)
  strContains r "majel" && strContains r "pend"

/-- `defaultSlotsForRole`: default slot count for a role row (the `svc`
argument is present in the Go signature but unused there too). -/
def defaultSlotsForRole (role : String) (_svc : String)
    (maxLektor maxPro maxMus : Nat) : Nat :=
  let low := lowerTrim role
  if strContains low "lektor" then maxLektor
  else if strContains low "prokantor" then maxPro
  else if strContains low "pemusik" then maxMus
  else 1

/-- Is `b` one of the five grouped category keys? -/
def isGroupKey (b : String) : Bool :=
  b == "lektor" || b == "prokantor" || b == "pemusik" || b == "kolektan" || b == "pjemaat"

/-- `groupMappingsForService`: split the mapping rows applicable to `svc`
into the five canonical groups (returned as a lookup function, empty for any
other key, like the Go map) and the remaining rows. -/
def groupMappingsForService (maps : List RoleMap) (svc : String) :
    (String → List RoleMap) × List RoleMap :=
  ((fun key =>
      maps.filter fun m =>
        (m.Service == "both" || m.Service == svc) &&
          (isGroupKey (baseRole m.Role) && (baseRole m.Role == key))),
   maps.filter fun m =>
     (m.Service == "both" || m.Service == svc) && !isGroupKey (baseRole m.Role))

/-! ### Composition pattern codes -/

/-- Leading decimal digits of a character list, with the rest. -/
def spanDigits : List Char → List Char × List Char
  | [] => ([], [])
  | c :: rest =>
    if c.isDigit then
      let s := spanDigits rest
      (c :: s.1, s.2)
    else ([], c :: rest)

/-- Numeric value of a digit list. -/
def digitsToNat (l : List Char) : Nat :=
  l.foldl (fun acc c => acc * 10 + (c.toNat - 48)) 0

/-- `fmt.Sscanf(c, "%d%s", …)`: an optionally signed integer followed by a
(non-empty, whitespace-delimited) string; `none` when either item fails. -/
def scanIntStr (c : String) : Option (Int × String) :=
  let l := c.data
  let signed : Int × List Char :=
    match l with
    | '-' :: rest => (-1, rest)
    | '+' :: rest => (1, rest)
    | _ => (1, l)
  let ds := spanDigits signed.2
  if ds.1 = [] then none
  else
    let afterSpaces := ds.2.dropWhile (fun ch => ch.isWhitespace)
    let suf := afterSpaces.takeWhile (fun ch => !ch.isWhitespace)
    if suf = [] then none
    else some (signed.1 * (digitsToNat ds.1 : Int), String.mk suf)

/-- `parsePattern`: decode a composition code `<digit 1-4><letter>` into
`(elder quota, member quota, total)`; anything outside the fixed enumeration
is an error. -/
def parsePattern (code : String) : Except String (Nat × Nat × Nat) :=
  let c := lowerTrim code
  if c.length < 2 then Except.error "kode tidak valid"
  else
    match scanIntStr c with
    | none => Except.error "kode tidak valid"
    | some (n, suf) =>
      if n < 1 || n > 4 then Except.error "jumlah di luar batas 1..4"
      else if n = 1 then
        if suf = "a" then Except.ok (1, 0, 1)
        else if suf = "b" then Except.ok (0, 1, 1)
        else Except.error "kode tidak dikenali"
      else if n = 2 then
        if suf = "a" then Except.ok (1, 1, 2)
        else if suf = "b" then Except.ok (2, 0, 2)
        else if suf = "c" then Except.ok (0, 2, 2)
        else Except.error "kode tidak dikenali"
      else if n = 3 then
        if suf = "a" then Except.ok (1, 2, 3)
        else if suf = "b" then Except.ok (2, 1, 3)
        else if suf = "c" then Except.ok (3, 0, 3)
        else if suf = "d" then Except.ok (0, 3, 3)
        else Except.error "kode tidak dikenali"
      else if n = 4 then
        if suf = "a" then Except.ok (1, 3, 4)
        else if suf = "b" then Except.ok (2, 2, 4)
        else if suf = "c" then Except.ok (3, 1, 4)
        else if suf = "d" then Except.ok (4, 0, 4)
        else if suf = "e" then Except.ok (0, 4, 4)
        else Except.error "kode tidak dikenali"
      else Except.error "kode tidak dikenali"

/-! ### Configuration, fairness tracker -/

/-- The flag-derived values read by the engine: the clamped per-service caps,
the composition pattern quotas, and the two hardening toggles
(`strictComposition`, `noRelaxB2B`). -/
structure Config where
  maxLektor : Nat
  maxPro : Nat
  maxMus : Nat
  kolektanPen : Nat
  kolektanJem : Nat
  pjemaatPen : Nat
  pjemaatJem : Nat
  strictComposition : Bool
  noRelaxB2B : Bool
deriving DecidableEq, Repr

/-- Pointwise update of the `lastAssigned` map (`lastAssigned[name] = d`). -/
def updateLast (last : String → Option Nat) (n : String) (d : Nat) :
    String → Option Nat :=
  fun n' => if n' = n then some d else last n'

/-- The `prefer` closure: true when there is no previous date in the
sequence (`prevSunday.IsZero()`), or the person has no recorded last
assignment, or that assignment is not on the previous date (`sameDay`). -/
def mkPrefer (prev : Option Nat) (last : String → Option Nat) (name : String) :
    Bool :=
  match prev with
  | none => true
  | some p =>
    match last name with
    | some t => if t = p then false else true
    | none => true

/-- Pointwise update of one role slot of a role→names map. -/
def updateFn (a : String → List String) (r : String) (v : List String) :
    String → List String :=
  fun r' => if r' = r then v else a r'

/-! ### The two-pass pick loop

The Majelis Pendamping passes (a)/(b), the Lektor/Prokantor/Pemusik passes
and the other-role passes in `generate` are the same loop with two switches:
whether `assignedAnyToday` is consulted (`checkAny`; only the MP relax pass
ignores it) and whether `prefer` is required (`usePrefer`; relax passes
ignore it).  Each successful pick appends to `picked`, marks the name in the
per-service set and in `assignedAnyToday`, and records `lastAssigned[name] = d`. -/

structure PickSt where
  picked : List String
  already : List String
  anyT : List String
  last : String → Option Nat

def pickPass (d : Nat) (slots : Nat) (checkAny usePrefer : Bool)
    (prev : Option Nat) : List String → PickSt → PickSt
  | [], s => s
  | name :: rest, s =>
    if s.picked.length ≥ slots then s
    else if name ∈ s.already ∨ (checkAny = true ∧ name ∈ s.anyT) then
      pickPass d slots checkAny usePrefer prev rest s
    else if usePrefer = true ∧ mkPrefer prev s.last name = false then
      pickPass d slots checkAny usePrefer prev rest s
    else
      pickPass d slots checkAny usePrefer prev rest
        { picked := s.picked ++ [name]
          already := name :: s.already
          anyT := name :: s.anyT
          last := updateLast s.last name d }

/-! ### Composition picker -/

/-- The mutable state of one `pickWithComposition` call: picked names in pick
order, the call-local `used` set, and the shared `already` (this service) and
`assignedAnyToday` sets. -/
structure CompSt where
  picked : List String
  used : List String
  already : List String
  anyT : List String

/-- The `remaining` closure: pool members not yet used in this call nor
already assigned in this service or today. -/
def compRemaining (s : CompSt) (pool : List Person) : List Person :=
  pool.filter fun p => ¬(p.Name ∈ s.used ∨ p.Name ∈ s.already ∨ p.Name ∈ s.anyT)

/-- The `pickFrom` closure: walk the pool, stopping when the overall total is
reached or this type's quota (`need`) is exhausted; skip names already used
or assigned; optionally require `prefer`.  Returns the remaining `need`. -/
def pickFrom (totalNeed : Nat) (prefer : String → Bool) (usePrefer : Bool) :
    List Person → Nat → CompSt → Nat × CompSt
  | [], need, s => (need, s)
  | p :: rest, need, s =>
    if s.picked.length ≥ totalNeed then (need, s)
    else if need = 0 then (need, s)
    else if p.Name ∈ s.used ∨ p.Name ∈ s.already ∨ p.Name ∈ s.anyT then
      pickFrom totalNeed prefer usePrefer rest need s
    else if usePrefer = true ∧ prefer p.Name = false then
      pickFrom totalNeed prefer usePrefer rest need s
    else
      pickFrom totalNeed prefer usePrefer rest (need - 1)
        { picked := s.picked ++ [p.Name]
          used := p.Name :: s.used
          already := p.Name :: s.already
          anyT := p.Name :: s.anyT }

/-- Result of `pickWithComposition`: the picked names plus the updated shared
sets (mutated in place in Go) and the advanced generator. -/
structure CompRes where
  picked : List String
  already : List String
  anyT : List String
  rng : Rng

/-- `pickWithComposition`: fill an (elder, member) quota from the two shuffled
pools in four graduated steps — A (prefer, per type), B (re-scan remaining,
still prefer), C (ignore prefer; only when `noRelaxB2B` is off), D (merge
both remaining pools, reshuffle, fill the total regardless of type; only when
`strictComposition` is off). -/
def pickWithComposition (cfg : Config) (rng : Rng)
    (candPen candJem : List Person) (needPen0 needJem0 : Nat)
    (prefer : String → Bool) (already anyT : List String) : CompRes :=
  let totalNeed := needPen0 + needJem0
  let s0 : CompSt := ⟨[], [], already, anyT⟩
  let a1 := pickFrom totalNeed prefer true candPen needPen0 s0
  let a2 := pickFrom totalNeed prefer true candJem needJem0 a1.2
  let b1 := if a1.1 > 0 then pickFrom totalNeed prefer true (compRemaining a2.2 candPen) a1.1 a2.2
            else (a1.1, a2.2)
  let b2 := if a2.1 > 0 then pickFrom totalNeed prefer true (compRemaining b1.2 candJem) a2.1 b1.2
            else (a2.1, b1.2)
  let c1 := if ¬cfg.noRelaxB2B ∧ b1.1 > 0 then
              pickFrom totalNeed prefer false (compRemaining b2.2 candPen) b1.1 b2.2
            else (b1.1, b2.2)
  let c2 := if ¬cfg.noRelaxB2B ∧ b2.1 > 0 then
              pickFrom totalNeed prefer false (compRemaining c1.2 candJem) b2.1 c1.2
            else (b2.1, c1.2)
  if ¬cfg.strictComposition ∧ c2.2.picked.length < totalNeed then
    let merged := compRemaining c2.2 candPen ++ compRemaining c2.2 candJem
    let sh := shuffle rng merged
    let extra := totalNeed - c2.2.picked.length
    let dres := pickFrom totalNeed prefer false sh.1 extra c2.2
    ⟨dres.2.picked, dres.2.already, dres.2.anyT, sh.2⟩
  else ⟨c2.2.picked, c2.2.already, c2.2.anyT, rng⟩

/-! ### Row distribution -/

/-- Map picked names onto rows in row order (`for i, rm := range rows`):
row `i` gets `[picked[i]]`, excess rows get the empty list.  Used by the
Lektor/Prokantor/Pemusik phase, which does not touch `lastAssigned` here. -/
def distributeRows : List RoleMap → List String → (String → List String) →
    (String → List String)
  | [], _, a => a
  | rm :: rest, [], a => distributeRows rest [] (updateFn a rm.Role [])
  | rm :: rest, n :: ns, a => distributeRows rest ns (updateFn a rm.Role [n])

/-- Same distribution as `distributeRows`, but also recording
`lastAssigned[picked[i]] = d` for each filled row — the composition phase's
loop. -/
def distributeRowsLast (d : Nat) : List RoleMap → List String →
    (String → List String) → (String → Option Nat) →
    (String → List String) × (String → Option Nat)
  | [], _, a, last => (a, last)
  | rm :: rest, [], a, last => distributeRowsLast d rest [] (updateFn a rm.Role []) last
  | rm :: rest, n :: ns, a, last =>
    distributeRowsLast d rest ns (updateFn a rm.Role [n]) (updateLast last n d)

/-! ### Per-service phase state -/

/-- The state a service's phases act on: the role→names slots of the current
`(date, service)`, the per-service assigned set (`assigned07`/`assigned10`),
the per-day set (`assignedAnyToday`), the fairness tracker and the
generator. -/
structure SvcSt where
  roleA : String → List String
  already : List String
  anyT : List String
  last : String → Option Nat
  rng : Rng

/-- Phase 1 body, one Majelis Pendamping row: quota from `Slots10` (else 1),
elder-only pool, pass (a) honouring `prefer` and both sets, pass (b) —
unconditional relax ignoring `assignedAnyToday` but never the per-service
set; write the picked list into the row's slot. -/
def mpRow (people : List Person) (prev : Option Nat) (d : Nat) (m : RoleMap)
    (s : SvcSt) : SvcSt :=
  let slots := if m.Slots10 > 0 then m.Slots10 else 1
  let sh := shuffle s.rng (filterCandidates people m.SourceColumn true)
  let st1 := pickPass d slots true true prev sh.1 ⟨[], s.already, s.anyT, s.last⟩
  let st2 := if st1.picked.length < slots then pickPass d slots false false prev sh.1 st1
             else st1
  ⟨updateFn s.roleA m.Role st2.picked, st2.already, st2.anyT, st2.last, sh.2⟩

/-- Phase 1: the Majelis Pendamping rows in order. -/
def mpPhase (people : List Person) (prev : Option Nat) (d : Nat)
    (mpRows : List RoleMap) (s : SvcSt) : SvcSt :=
  mpRows.foldl (fun s m => mpRow people prev d m s) s

/-- The `(needPen, needJem)` quota configured for a composition category. -/
def compNeeds (cfg : Config) (key : String) : Nat × Nat :=
  if key = "kolektan" then (cfg.kolektanPen, cfg.kolektanJem)
  else if key = "pjemaat" then (cfg.pjemaatPen, cfg.pjemaatJem)
  else (0, 0)

/-- Phase 2 body, one composition category: clamp the total to the row
count, build the elder/member pools as the deduplicated union of
`filterCandidatesSplit` over all rows, shuffle both, run the composition
picker, truncate to the clamped total, and map names onto rows (recording
`lastAssigned`). -/
def compCategory (cfg : Config) (people : List Person) (prev : Option Nat)
    (d : Nat) (key : String) (rows : List RoleMap) (s : SvcSt) : SvcSt :=
  let needs := compNeeds cfg key
  let totalNeed := min (needs.1 + needs.2) rows.length
  let pools := rows.foldl
    (fun acc rm =>
      let pj := filterCandidatesSplit people rm.SourceColumn
      (acc.1 ++ pj.1, acc.2 ++ pj.2))
    (([] : List String), ([] : List String))
  let candPen := (uniq pools.1).map fun n => Person.mk n true []
  let candJem := (uniq pools.2).map fun n => Person.mk n false []
  let shPen := shuffle s.rng candPen
  let shJem := shuffle shPen.2 candJem
  let res := pickWithComposition cfg shJem.2 shPen.1 shJem.1 needs.1 needs.2
    (mkPrefer prev s.last) s.already s.anyT
  let picked := if res.picked.length > totalNeed then res.picked.take totalNeed
                else res.picked
  let al := distributeRowsLast d rows picked s.roleA s.last
  ⟨al.1, res.already, res.anyT, al.2, res.rng⟩

/-- Phase 2: the two composition categories in fixed order, skipping a
category with no rows. -/
def compPhase (cfg : Config) (people : List Person) (prev : Option Nat)
    (d : Nat) (grouped : String → List RoleMap) (s : SvcSt) : SvcSt :=
  ["kolektan", "pjemaat"].foldl
    (fun s key =>
      let rows := grouped key
      if rows.isEmpty then s
      else compCategory cfg people prev d key rows s)
    s

/-- Phase 3 body, one capped group: limit clamped to the row count, pool from
the FIRST row's source column (not elder-restricted), pass A honouring
`prefer`, relax pass only when `noRelaxB2B` is off, then distribute onto rows
(the picks already updated `lastAssigned`). -/
def cappedGroup (cfg : Config) (people : List Person) (prev : Option Nat)
    (d : Nat) (limit0 : Nat) (rows : List RoleMap) (s : SvcSt) : SvcSt :=
  match rows with
  | [] => s
  | r0 :: _ =>
    let limit := min limit0 rows.length
    let sh := shuffle s.rng (filterCandidates people r0.SourceColumn false)
    let st1 := pickPass d limit true true prev sh.1 ⟨[], s.already, s.anyT, s.last⟩
    let st2 := if ¬cfg.noRelaxB2B ∧ st1.picked.length < limit then
                 pickPass d limit true false prev sh.1 st1
               else st1
    ⟨distributeRows rows st2.picked s.roleA, st2.already, st2.anyT, st2.last, sh.2⟩

/-- Phase 3: the three capped groups in fixed order. -/
def cappedPhase (cfg : Config) (people : List Person) (prev : Option Nat)
    (d : Nat) (grouped : String → List RoleMap) (s : SvcSt) : SvcSt :=
  [("lektor", cfg.maxLektor), ("prokantor", cfg.maxPro), ("pemusik", cfg.maxMus)].foldl
    (fun s g => cappedGroup cfg people prev d g.2 (grouped g.1) s) s

/-- Phase 4 body, one remaining (non-MP) row: slot count from the explicit
per-service override, else the category default; two-pass pick on the row's
own source column; write the whole picked list into the row's slot. -/
def otherRow (cfg : Config) (people : List Person) (prev : Option Nat)
    (d : Nat) (svc : String) (m : RoleMap) (s : SvcSt) : SvcSt :=
  if ¬(m.Service = "both" ∨ m.Service = svc) then s
  else if svc = "07" ∧ isMajelisPendamping m.Role then s
  else
    let slots0 := defaultSlotsForRole m.Role svc cfg.maxLektor cfg.maxPro cfg.maxMus
    let slots1 := if svc = "07" ∧ m.Slots07 > 0 then m.Slots07 else slots0
    let slots := if svc = "10" ∧ m.Slots10 > 0 then m.Slots10 else slots1
    let sh := shuffle s.rng (filterCandidates people m.SourceColumn (isMajelisPendamping m.Role))
    let st1 := pickPass d slots true true prev sh.1 ⟨[], s.already, s.anyT, s.last⟩
    let st2 := if ¬cfg.noRelaxB2B ∧ st1.picked.length < slots then
                 pickPass d slots true false prev sh.1 st1
               else st1
    ⟨updateFn s.roleA m.Role st2.picked, st2.already, st2.anyT, st2.last, sh.2⟩

/-- Phase 4: the remaining non-MP rows in order. -/
def othersPhase (cfg : Config) (people : List Person) (prev : Option Nat)
    (d : Nat) (svc : String) (otherNonMP : List RoleMap) (s : SvcSt) : SvcSt :=
  otherNonMP.foldl (fun s m => otherRow cfg people prev d svc m s) s

/-! ### Scheduling driver -/

/-- The four phases of one service in their strict order, acting on the
service state. -/
def svcPhases (cfg : Config) (people : List Person) (maps : List RoleMap)
    (prev : Option Nat) (d : Nat) (svc : String) (s : SvcSt) : SvcSt :=
  let gm := groupMappingsForService maps svc
  let svcOthers := gm.2.filter fun m => m.Service = "both" ∨ m.Service = svc
  let mpRows := svcOthers.filter fun m => isMajelisPendamping m.Role
  let otherNonMP := svcOthers.filter fun m => ¬ isMajelisPendamping m.Role
  let s1 := if svc = "10" ∧ ¬ mpRows.isEmpty then mpPhase people prev d mpRows s else s
  let s2 := compPhase cfg people prev d gm.1 s1
  let s3 := cappedPhase cfg people prev d gm.1 s2
  othersPhase cfg people prev d svc otherNonMP s3

/-- The per-date working state: the two services' role slots for the current
date, the two per-service assigned sets, the per-day set, the fairness
tracker and the generator. -/
structure DaySt where
  a07 : String → List String
  a10 : String → List String
  s07 : List String
  s10 : List String
  anyT : List String
  last : String → Option Nat
  rng : Rng

/-- Run one service's phases inside a date: project the service's slots and
per-service set, run the phases, write the results back. -/
def processService (cfg : Config) (people : List Person) (maps : List RoleMap)
    (prev : Option Nat) (d : Nat) (svc : String) (ds : DaySt) : DaySt :=
  if svc = "07" then
    let s := svcPhases cfg people maps prev d svc ⟨ds.a07, ds.s07, ds.anyT, ds.last, ds.rng⟩
    ⟨s.roleA, ds.a10, s.already, ds.s10, s.anyT, s.last, s.rng⟩
  else
    let s := svcPhases cfg people maps prev d svc ⟨ds.a10, ds.s10, ds.anyT, ds.last, ds.rng⟩
    ⟨ds.a07, s.roleA, ds.s07, s.already, s.anyT, s.last, s.rng⟩

/-- The whole-run state: the `Assignment` (date → service → role → names,
empty list for absent keys), the fairness tracker, and the generator. -/
structure GenSt where
  assign : Nat → String → String → List String
  last : String → Option Nat
  rng : Rng

/-- Process one date: fresh per-date sets, the two services in fixed order
`07` then `10`, then write both services' slots back into the assignment at
this date. -/
def processDate (cfg : Config) (people : List Person) (maps : List RoleMap)
    (prev : Option Nat) (d : Nat) (g : GenSt) : GenSt :=
  let ds0 : DaySt := ⟨g.assign d "07", g.assign d "10", [], [], [], g.last, g.rng⟩
  let ds1 := processService cfg people maps prev d "07" ds0
  let ds := processService cfg people maps prev d "10" ds1
  ⟨fun d' svc r =>
      if d' = d then
        if svc = "07" then ds.a07 r
        else if svc = "10" then ds.a10 r
        else g.assign d' svc r
      else g.assign d' svc r,
   ds.last, ds.rng⟩

/-- The date loop of `generate`: dates in input order, each date seeing the
immediately preceding date of the sequence (none for the first). -/
def genLoop (cfg : Config) (people : List Person) (maps : List RoleMap) :
    Option Nat → List Nat → GenSt → GenSt
  | _, [], g => g
  | prev, d :: rest, g =>
    genLoop cfg people maps (some d) rest (processDate cfg people maps prev d g)

/-- The empty `Assignment` the caller hands to `generate`. -/
def emptyAssign : Nat → String → String → List String := fun _ _ _ => []

/-- The final state of a run of the engine. -/
def genSt (cfg : Config) (people : List Person) (maps : List RoleMap)
    (dates : List Nat) (assign0 : Nat → String → String → List String)
    (rng : Rng) : GenSt :=
  genLoop cfg people maps none dates ⟨assign0, fun _ => none, rng⟩

/-- `generate`: run the scheduling engine over the dates.  The Go function's
only `return` is `return nil`; the error channel is represented by the
`Except` result and is never used. -/
def generate (cfg : Config) (people : List Person) (maps : List RoleMap)
    (dates : List Nat) (assign0 : Nat → String → String → List String)
    (rng : Rng) : Except String GenSt :=
  Except.ok (genSt cfg people maps dates assign0 rng)

/-! ### Specification-level predicates -/

/-- The order predicate of `sort.Strings`: adjacent-free pairwise `strLe`. -/
def StrSorted (l : List String) : Prop := l.Pairwise fun a b => strLe a b = true

/-- `n` is a name of some roster member whose mark for the normalized `src`
key is present and true. -/
def IsEligible (people : List Person) (src : String) (n : String) : Prop :=
  ∃ p ∈ people, p.Name = n ∧ lookupMarks p.Marks (normKey src) = some true

/-- `n` may legitimately sit in role `r` of service `svc`: some mapping row
applicable to `svc` and classified into the same canonical category as `r`
declares a source column for which `n` is eligible. -/
def EligRole (people : List Person) (maps : List RoleMap) (svc r n : String) :
    Prop :=
  ∃ m ∈ maps, (m.Service = "both" ∨ m.Service = svc) ∧
    baseRole m.Role = baseRole r ∧ IsEligible people m.SourceColumn n

/-- Assignment-slot invariant for one `(date, service)`: every slot list has
no duplicates, no name sits in two distinct slots, and every assigned name is
in the set `S` (instantiated with the per-service assigned set). -/
def AInv (a : String → List String) (S : List String) : Prop :=
  (∀ r, (a r).Nodup) ∧
  (∀ r₁ r₂ n, r₁ ≠ r₂ → n ∈ a r₁ → n ∈ a r₂ → False) ∧
  (∀ r n, n ∈ a r → n ∈ S)

/-- The duplicate-freeness part of `AInv` alone (what survives after the
per-date sets go out of scope). -/
def NoDouble (a : String → List String) : Prop :=
  (∀ r, (a r).Nodup) ∧
  (∀ r₁ r₂ n, r₁ ≠ r₂ → n ∈ a r₁ → n ∈ a r₂ → False)

/-- Eligibility invariant for one `(date, service)` slot map. -/
def EInv (people : List Person) (maps : List RoleMap) (svc : String)
    (a : String → List String) : Prop :=
  ∀ r n, n ∈ a r → EligRole people maps svc r n

/-- The invariant a service's phases preserve: the slot map satisfies the
duplicate-freeness/containment invariant with respect to the per-service
assigned set, and every assigned name is eligible for its role's category. -/
def SvcInv (people : List Person) (maps : List RoleMap) (svc : String)
    (s : SvcSt) : Prop :=
  AInv s.roleA s.already ∧ EInv people maps svc s.roleA

/-- The per-date invariant: each service's slot map satisfies the
duplicate-freeness/containment invariant against its own assigned set and the
eligibility invariant for its service. -/
def DayInv (people : List Person) (maps : List RoleMap) (ds : DaySt) : Prop :=
  AInv ds.a07 ds.s07 ∧ EInv people maps "07" ds.a07 ∧
  AInv ds.a10 ds.s10 ∧ EInv people maps "10" ds.a10

/-- Invariant carried through the steps of one `pickWithComposition` call:
`P` is the allowed origin of picked names, `A`/`T` are the shared sets as
they were at the start of the call. -/
def CompProps (P : Person → Prop) (A T : List String) (s : CompSt) : Prop :=
  (∀ n ∈ s.picked, n ∈ s.already ∧ n ∈ s.anyT) ∧
  s.picked.Nodup ∧
  (∀ n ∈ A, n ∈ s.already) ∧
  (∀ n ∈ T, n ∈ s.anyT) ∧
  (∀ n ∈ s.picked, (∃ p, P p ∧ p.Name = n) ∧ ¬ n ∈ A)

/-! ### Concrete fixtures used by witnesses and counterexamples -/

/-- A concrete generator stream that always draws 0 (the identity shuffle). -/
def rng0 : Rng := ⟨fun _ => 0, 0⟩

/-- Default flag values: caps 2/2/2, Kolektan pattern `2b` = (2,0), P. Jemaat
pattern `3a` = (1,2), both hardening toggles off. -/
def cfgDefault : Config := ⟨2, 2, 2, 2, 0, 1, 2, false, false⟩

/-- Same as `cfgDefault` with strict composition enabled. -/
def cfgStrict : Config := ⟨2, 2, 2, 2, 0, 1, 2, true, false⟩

/-- One elder, eligible for the `a` column and the `mp` column. -/
def peopleMP : List Person := [⟨"E", true, [("a", true), ("mp", true)]⟩]

/-- A plain first-service role fed from `a`, and a second-service escort row
fed from `mp`. -/
def mapsMP : List RoleMap :=
  [⟨"Song", "a", "07", 0, 0⟩, ⟨"Majelis Pendamping", "mp", "10", 0, 0⟩]

/-- One elder and one ordinary member, both eligible for column `k`. -/
def peopleComp : List Person :=
  [⟨"E", true, [("k", true)]⟩, ⟨"M", false, [("k", true)]⟩]

/-- Two Kolektan rows fed from `k`. -/
def rowsComp : List RoleMap :=
  [⟨"Kolektan 1", "k", "both", 0, 0⟩, ⟨"Kolektan 2", "k", "both", 0, 0⟩]

/-- Two elders, both eligible for column `k`. -/
def peopleTwoPen : List Person :=
  [⟨"P1", true, [("k", true)]⟩, ⟨"P2", true, [("k", true)]⟩]

/-- A single Kolektan row fed from `k`. -/
def rowsOnePen : List RoleMap := [⟨"Kolektan 1", "k", "both", 0, 0⟩]

/-- Two members, both eligible for column `k1`, neither for `k2`. -/
def peopleCapped : List Person :=
  [⟨"A", false, [("k1", true)]⟩, ⟨"B", false, [("k1", true)]⟩]

/-- Two Lektor rows with different source columns `k1` and `k2`. -/
def mapsCapped : List RoleMap :=
  [⟨"Lektor 1", "k1", "both", 0, 0⟩, ⟨"Lektor 2", "k2", "both", 0, 0⟩]

/-- An all-fresh service state (empty slots and sets). -/
def svcSt0 : SvcSt := ⟨fun _ => [], [], [], fun _ => none, rng0⟩

/-! ## Lemmas about the lexicographic order and `sort.Strings` -/

theorem charsLe_cons_iff {a b : Char} {as bs : List Char} :
    charsLe (a :: as) (b :: bs) = true ↔ a < b ∨ (a = b ∧ charsLe as bs = true) := by
  by_cases h1 : a < b
  · simp [charsLe, h1]
  · by_cases h2 : b < a
    · have hne : a ≠ b := fun h => absurd (h ▸ h2) (lt_irrefl a)
      simp [charsLe, h1, h2, hne]
    · have heq : a = b := le_antisymm (not_lt.mp h2) (not_lt.mp h1)
      simp [charsLe, h1, h2, heq]

theorem charsLe_total : ∀ a b : List Char, charsLe a b = true ∨ charsLe b a = true
  | [], _ => Or.inl rfl
  | _ :: _, [] => Or.inr rfl
  | a :: as, b :: bs => by
    by_cases h1 : a < b
    · exact Or.inl (charsLe_cons_iff.mpr (Or.inl h1))
    · by_cases h2 : b < a
      · exact Or.inr (charsLe_cons_iff.mpr (Or.inl h2))
      · have heq : a = b := le_antisymm (not_lt.mp h2) (not_lt.mp h1)
        rcases charsLe_total as bs with h | h
        · exact Or.inl (charsLe_cons_iff.mpr (Or.inr ⟨heq, h⟩))
        · exact Or.inr (charsLe_cons_iff.mpr (Or.inr ⟨heq.symm, h⟩))

theorem charsLe_trans : ∀ a b c : List Char,
    charsLe a b = true → charsLe b c = true → charsLe a c = true
  | [], _, _, _, _ => rfl
  | _ :: _, [], _, h, _ => by simp [charsLe] at h
  | _ :: _, _ :: _, [], _, h2 => by simp [charsLe] at h2
  | a :: as, b :: bs, c :: cs, h1, h2 => by
    rcases charsLe_cons_iff.mp h1 with hab | ⟨hab, hab'⟩ <;>
      rcases charsLe_cons_iff.mp h2 with hbc | ⟨hbc, hbc'⟩
    · exact charsLe_cons_iff.mpr (Or.inl (lt_trans hab hbc))
    · exact charsLe_cons_iff.mpr (Or.inl (hbc ▸ hab))
    · exact charsLe_cons_iff.mpr (Or.inl (hab ▸ hbc))
    · exact charsLe_cons_iff.mpr
        (Or.inr ⟨hab.trans hbc, charsLe_trans as bs cs hab' hbc'⟩)

theorem strLe_total (a b : String) : strLe a b = true ∨ strLe b a = true :=
  charsLe_total a.data b.data

theorem strLe_trans {a b c : String} (h1 : strLe a b = true)
    (h2 : strLe b c = true) : strLe a c = true :=
  charsLe_trans a.data b.data c.data h1 h2

theorem insertSorted_perm (s : String) :
    ∀ l : List String, (insertSorted s l).Perm (s :: l)
  | [] => List.Perm.refl _
  | t :: rest => by
    by_cases h : strLe s t = true
    · simp [insertSorted, h]
    · simpa [insertSorted, h] using
        ((insertSorted_perm s rest).cons t).trans (List.Perm.swap s t rest)

theorem sortStrings_perm : ∀ l : List String, (sortStrings l).Perm l
  | [] => List.Perm.refl _
  | s :: rest =>
    (insertSorted_perm s (sortStrings rest)).trans ((sortStrings_perm rest).cons s)

theorem mem_sortStrings {n : String} {l : List String} :
    n ∈ sortStrings l ↔ n ∈ l :=
  (sortStrings_perm l).mem_iff

theorem sortStrings_nodup {l : List String} (h : l.Nodup) :
    (sortStrings l).Nodup :=
  (sortStrings_perm l).nodup_iff.mpr h

theorem strSorted_cons {x : String} {l : List String} :
    StrSorted (x :: l) ↔ (∀ y ∈ l, strLe x y = true) ∧ StrSorted l :=
  List.pairwise_cons

theorem insertSorted_sorted (s : String) :
    ∀ l : List String, StrSorted l → StrSorted (insertSorted s l)
  | [], _ => List.pairwise_singleton _ _
  | t :: rest, h => by
    rcases strSorted_cons.mp h with ⟨ht, hrest⟩
    by_cases hle : strLe s t = true
    · rw [insertSorted, if_pos hle]
      refine strSorted_cons.mpr ⟨?_, h⟩
      intro x hx
      rcases List.mem_cons.mp hx with rfl | hx
      · exact hle
      · exact strLe_trans hle (ht x hx)
    · have hts : strLe t s = true := (strLe_total s t).resolve_left hle
      rw [insertSorted, if_neg hle]
      refine strSorted_cons.mpr ⟨?_, insertSorted_sorted s rest hrest⟩
      intro x hx
      rcases List.mem_cons.mp ((insertSorted_perm s rest).mem_iff.mp hx) with rfl | hx
      · exact hts
      · exact ht x hx

theorem sortStrings_sorted : ∀ l : List String, StrSorted (sortStrings l)
  | [] => List.Pairwise.nil
  | s :: rest => insertSorted_sorted s (sortStrings rest) (sortStrings_sorted rest)

/-! ## Lemmas about the shuffle -/

theorem pickIdx_perm :
    ∀ (l : List α) (j : Nat) (a : α) (l' : List α),
      pickIdx l j = some (a, l') → l.Perm (a :: l')
  | [], _, _, _, h => by simp [pickIdx] at h
  | x :: xs, 0, a, l', h => by
    simp only [pickIdx, Option.some_inj, Prod.mk.injEq] at h
    rcases h with ⟨rfl, rfl⟩
    exact List.Perm.refl _
  | x :: xs, j + 1, a, l', h => by
    simp only [pickIdx] at h
    rcases hx : pickIdx xs j with _ | ⟨b, xs'⟩
    · rw [hx] at h; exact absurd h (by simp)
    · rw [hx] at h
      simp only [Option.some_inj, Prod.mk.injEq] at h
      rcases h with ⟨rfl, rfl⟩
      exact ((pickIdx_perm xs j _ xs' hx).cons x).trans (List.Perm.swap _ x xs')

theorem shuffleAux_perm :
    ∀ (n : Nat) (r : Rng) (l : List α), (shuffleAux n r l).1.Perm l
  | 0, _, _ => List.Perm.refl _
  | n + 1, r, l => by
    simp only [shuffleAux]
    rcases hx : pickIdx l (r.next l.length).1 with _ | ⟨a, l'⟩
    · exact List.Perm.refl _
    · exact ((shuffleAux_perm n (r.next l.length).2 l').cons a).trans
        (pickIdx_perm l _ a l' hx).symm

theorem shuffle_perm (r : Rng) (l : List α) : (shuffle r l).1.Perm l :=
  shuffleAux_perm l.length r l

theorem mem_shuffle {r : Rng} {l : List α} {a : α} :
    a ∈ (shuffle r l).1 ↔ a ∈ l :=
  (shuffle_perm r l).mem_iff

theorem nodup_shuffle {r : Rng} {l : List α} (h : l.Nodup) :
    (shuffle r l).1.Nodup :=
  (shuffle_perm r l).nodup_iff.mpr h

/-! ## Lemmas about the eligibility index -/

theorem filterCandidates_sorted (people : List Person) (src : String)
    (mustPenatua : Bool) : StrSorted (filterCandidates people src mustPenatua) :=
  sortStrings_sorted _

theorem filterCandidates_nodup (people : List Person) (src : String)
    (mustPenatua : Bool) : (filterCandidates people src mustPenatua).Nodup :=
  sortStrings_nodup (List.nodup_dedup _)

theorem mem_filterCandidates {people : List Person} {src : String}
    {mustPenatua : Bool} {n : String} :
    n ∈ filterCandidates people src mustPenatua ↔
      ∃ p ∈ people, p.Name = n ∧ (mustPenatua = true → p.IsPenatua = true) ∧
        lookupMarks p.Marks (normKey src) = some true := by
  simp only [filterCandidates, mem_sortStrings, List.mem_dedup, List.mem_map,
    List.mem_filter, Bool.and_eq_true, Bool.or_eq_true, Bool.not_eq_true',
    beq_iff_eq]
  constructor
  · rintro ⟨p, ⟨hp, hm, hmark⟩, rfl⟩
    refine ⟨p, hp, rfl, ?_, hmark⟩
    intro hmust
    rcases hm with hm | hm
    · exact absurd hm (by simp [hmust])
    · exact hm
  · rintro ⟨p, hp, rfl, hmust, hmark⟩
    refine ⟨p, ⟨hp, ?_, hmark⟩, rfl⟩
    cases hb : mustPenatua
    · exact Or.inl rfl
    · exact Or.inr (hmust hb)

theorem mem_filterCandidatesSplit_pen {people : List Person} {src : String}
    {n : String} :
    n ∈ (filterCandidatesSplit people src).1 ↔
      ∃ p ∈ people, p.Name = n ∧ p.IsPenatua = true ∧
        lookupMarks p.Marks (normKey src) = some true := by
  simp only [filterCandidatesSplit, List.mem_map, List.mem_filter,
    Bool.and_eq_true, beq_iff_eq]
  constructor
  · rintro ⟨p, ⟨hp, hpen, hmark⟩, rfl⟩
    exact ⟨p, hp, rfl, hpen, hmark⟩
  · rintro ⟨p, hp, rfl, hpen, hmark⟩
    exact ⟨p, ⟨hp, hpen, hmark⟩, rfl⟩

theorem mem_filterCandidatesSplit_jem {people : List Person} {src : String}
    {n : String} :
    n ∈ (filterCandidatesSplit people src).2 ↔
      ∃ p ∈ people, p.Name = n ∧ p.IsPenatua = false ∧
        lookupMarks p.Marks (normKey src) = some true := by
  simp only [filterCandidatesSplit, List.mem_map, List.mem_filter,
    Bool.and_eq_true, Bool.not_eq_true', beq_iff_eq]
  constructor
  · rintro ⟨p, ⟨hp, hpen, hmark⟩, rfl⟩
    exact ⟨p, hp, rfl, hpen, hmark⟩
  · rintro ⟨p, hp, rfl, hpen, hmark⟩
    exact ⟨p, ⟨hp, hpen, hmark⟩, rfl⟩

theorem uniq_sorted (l : List String) : StrSorted (uniq l) :=
  sortStrings_sorted _

theorem uniq_nodup (l : List String) : (uniq l).Nodup :=
  sortStrings_nodup (List.nodup_dedup _)

theorem mem_uniq {l : List String} {n : String} : n ∈ uniq l ↔ n ∈ l := by
  simp [uniq, mem_sortStrings, List.mem_dedup]

/-- Eligibility transfers from `filterCandidates` membership. -/
theorem isEligible_of_mem_filterCandidates {people : List Person} {src : String}
    {mustPenatua : Bool} {n : String}
    (h : n ∈ filterCandidates people src mustPenatua) :
    IsEligible people src n := by
  rcases mem_filterCandidates.mp h with ⟨p, hp, rfl, _, hmark⟩
  exact ⟨p, hp, rfl, hmark⟩

/-! ## Properties of the generic two-pass pick loop -/

theorem pickPass_props (d slots : Nat) (chk up : Bool) (prev : Option Nat) :
    ∀ (cands : List String) (s : PickSt),
      (∀ n ∈ s.picked, n ∈ s.already) → s.picked.Nodup →
      (∀ n ∈ (pickPass d slots chk up prev cands s).picked,
        n ∈ (pickPass d slots chk up prev cands s).already) ∧
      (pickPass d slots chk up prev cands s).picked.Nodup ∧
      (∀ n ∈ s.already, n ∈ (pickPass d slots chk up prev cands s).already) ∧
      (∀ n ∈ s.anyT, n ∈ (pickPass d slots chk up prev cands s).anyT) ∧
      (∀ n ∈ (pickPass d slots chk up prev cands s).picked,
        n ∈ s.picked ∨ (n ∈ cands ∧ ¬ n ∈ s.already)) ∧
      (s.picked.length ≤ slots →
        (pickPass d slots chk up prev cands s).picked.length ≤ slots) := by
  intro cands
  induction cands with
  | nil =>
    intro s hsub hnd
    simp only [pickPass]
    exact ⟨hsub, hnd, fun n h => h, fun n h => h, fun n h => Or.inl h, fun h => h⟩
  | cons name rest ih =>
    intro s hsub hnd
    by_cases c1 : s.picked.length ≥ slots
    · simp only [pickPass, if_pos c1]
      exact ⟨hsub, hnd, fun n h => h, fun n h => h, fun n h => Or.inl h, fun h => h⟩
    · by_cases c2 : name ∈ s.already ∨ (chk = true ∧ name ∈ s.anyT)
      · simp only [pickPass, if_neg c1, if_pos c2]
        rcases ih s hsub hnd with ⟨h1, h2, h3, h4, h5, h6⟩
        refine ⟨h1, h2, h3, h4, fun n hn => ?_, h6⟩
        rcases h5 n hn with h | ⟨hc, ha⟩
        · exact Or.inl h
        · exact Or.inr ⟨List.mem_cons_of_mem _ hc, ha⟩
      · by_cases c3 : up = true ∧ mkPrefer prev s.last name = false
        · simp only [pickPass, if_neg c1, if_neg c2, if_pos c3]
          rcases ih s hsub hnd with ⟨h1, h2, h3, h4, h5, h6⟩
          refine ⟨h1, h2, h3, h4, fun n hn => ?_, h6⟩
          rcases h5 n hn with h | ⟨hc, ha⟩
          · exact Or.inl h
          · exact Or.inr ⟨List.mem_cons_of_mem _ hc, ha⟩
        · simp only [pickPass, if_neg c1, if_neg c2, if_neg c3]
          have hna : ¬ name ∈ s.already := fun h => c2 (Or.inl h)
          have hnp : ¬ name ∈ s.picked := fun h => hna (hsub name h)
          set s2 : PickSt :=
            { picked := s.picked ++ [name], already := name :: s.already,
              anyT := name :: s.anyT, last := updateLast s.last name d } with hs2
          have hsub2 : ∀ n ∈ s2.picked, n ∈ s2.already := by
            intro n hn
            rcases List.mem_append.mp hn with h | h
            · exact List.mem_cons_of_mem _ (hsub n h)
            · rcases List.mem_singleton.mp h with rfl
              exact List.mem_cons_self _ _
          have hnd2 : s2.picked.Nodup := by
            simp [hs2, List.nodup_append, hnd, hnp]
          rcases ih s2 hsub2 hnd2 with ⟨h1, h2, h3, h4, h5, h6⟩
          refine ⟨h1, h2, ?_, ?_, ?_, ?_⟩
          · intro n hn
            exact h3 n (List.mem_cons_of_mem _ hn)
          · intro n hn
            exact h4 n (List.mem_cons_of_mem _ hn)
          · intro n hn
            rcases h5 n hn with h | ⟨hc, ha⟩
            · rcases List.mem_append.mp h with h | h
              · exact Or.inl h
              · rcases List.mem_singleton.mp h with rfl
                exact Or.inr ⟨List.mem_cons_self _ _, hna⟩
            · have : ¬ n ∈ s.already := fun hmem => ha (List.mem_cons_of_mem _ hmem)
              exact Or.inr ⟨List.mem_cons_of_mem _ hc, this⟩
          · intro _
            have hlt : s.picked.length < slots := Nat.lt_of_not_le c1
            have : s2.picked.length ≤ slots := by
              simpa [hs2] using Nat.succ_le_of_lt hlt
            exact h6 this

/-! ## Properties of the composition picker -/

theorem pickFrom_zero (t : Nat) (pr : String → Bool) (up : Bool)
    (pool : List Person) (s : CompSt) : pickFrom t pr up pool 0 s = (0, s) := by
  cases pool with
  | nil => rfl
  | cons p rest => simp [pickFrom]

theorem pickFrom_step (P : Person → Prop) (A T : List String) (t : Nat)
    (pr : String → Bool) (up : Bool) :
    ∀ (pool : List Person), (∀ p ∈ pool, P p) →
      ∀ (need : Nat) (s : CompSt), CompProps P A T s →
        CompProps P A T (pickFrom t pr up pool need s).2 ∧
        (s.picked.length ≤ t → (pickFrom t pr up pool need s).2.picked.length ≤ t) := by
  intro pool
  induction pool with
  | nil =>
    intro _ need s h
    exact ⟨h, fun hl => hl⟩
  | cons p rest ih =>
    intro hpool need s h
    have hpoolrest : ∀ q ∈ rest, P q := fun q hq => hpool q (List.mem_cons_of_mem _ hq)
    by_cases c1 : s.picked.length ≥ t
    · simp only [pickFrom, if_pos c1]
      exact ⟨h, fun hl => hl⟩
    · by_cases c2 : need = 0
      · simp only [pickFrom, if_neg c1, if_pos c2]
        exact ⟨h, fun hl => hl⟩
      · by_cases c3 : p.Name ∈ s.used ∨ p.Name ∈ s.already ∨ p.Name ∈ s.anyT
        · simp only [pickFrom, if_neg c1, if_neg c2, if_pos c3]
          exact ih hpoolrest need s h
        · by_cases c4 : up = true ∧ pr p.Name = false
          · simp only [pickFrom, if_neg c1, if_neg c2, if_neg c3, if_pos c4]
            exact ih hpoolrest need s h
          · simp only [pickFrom, if_neg c1, if_neg c2, if_neg c3, if_neg c4]
            rcases h with ⟨hsub, hnd, hA, hT, horig⟩
            have hnalready : ¬ p.Name ∈ s.already := fun hmem => c3 (Or.inr (Or.inl hmem))
            have hnp : ¬ p.Name ∈ s.picked :=
              fun hmem => hnalready (hsub p.Name hmem).1
            have hnA : ¬ p.Name ∈ A := fun hmem => hnalready (hA _ hmem)
            set s2 : CompSt :=
              { picked := s.picked ++ [p.Name], used := p.Name :: s.used,
                already := p.Name :: s.already, anyT := p.Name :: s.anyT } with hs2
            have h2 : CompProps P A T s2 := by
              refine ⟨?_, ?_, ?_, ?_, ?_⟩
              · intro n hn
                rcases List.mem_append.mp hn with hn | hn
                · exact ⟨List.mem_cons_of_mem _ (hsub n hn).1,
                    List.mem_cons_of_mem _ (hsub n hn).2⟩
                · rcases List.mem_singleton.mp hn with rfl
                  exact ⟨List.mem_cons_self _ _, List.mem_cons_self _ _⟩
              · simp [hs2, List.nodup_append, hnd, hnp]
              · intro n hn
                exact List.mem_cons_of_mem _ (hA n hn)
              · intro n hn
                exact List.mem_cons_of_mem _ (hT n hn)
              · intro n hn
                rcases List.mem_append.mp hn with hn | hn
                · exact horig n hn
                · rcases List.mem_singleton.mp hn with rfl
                  exact ⟨⟨p, hpool p (List.mem_cons_self _ _), rfl⟩, hnA⟩
            rcases ih hpoolrest (need - 1) s2 h2 with ⟨hrec, hlen⟩
            refine ⟨hrec, fun _ => ?_⟩
            have hlt : s.picked.length < t := Nat.lt_of_not_le c1
            have : s2.picked.length ≤ t := by
              simpa [hs2] using Nat.succ_le_of_lt hlt
            exact hlen this

/-- A guarded composition step (`if … then pickFrom … else skip`) preserves
the invariant and the length bound. -/
theorem compStep_if (P : Person → Prop) (A T : List String) (t : Nat)
    (pr : String → Bool) (up : Bool) (c : Prop) [Decidable c]
    (pool : List Person) (hpool : ∀ p ∈ pool, P p) (k k' : Nat) (s : CompSt)
    (h : CompProps P A T s) :
    CompProps P A T (if c then pickFrom t pr up pool k s else (k', s)).2 ∧
    (s.picked.length ≤ t →
      (if c then pickFrom t pr up pool k s else (k', s)).2.picked.length ≤ t) := by
  split
  · exact pickFrom_step P A T t pr up pool hpool k s h
  · exact ⟨h, fun hl => hl⟩

theorem mem_of_mem_compRemaining {s : CompSt} {pool : List Person} {p : Person}
    (h : p ∈ compRemaining s pool) : p ∈ pool :=
  (List.mem_filter.mp h).1

theorem pickWithComposition_props (cfg : Config) (rng : Rng)
    (candPen candJem : List Person) (nP nJ : Nat) (prefer : String → Bool)
    (already anyT : List String) (res : CompRes)
    (hres : pickWithComposition cfg rng candPen candJem nP nJ prefer already anyT = res) :
    (∀ n ∈ res.picked, n ∈ res.already ∧ n ∈ res.anyT) ∧
    res.picked.Nodup ∧
    (∀ n ∈ already, n ∈ res.already) ∧
    (∀ n ∈ anyT, n ∈ res.anyT) ∧
    (∀ n ∈ res.picked,
      (∃ p, (p ∈ candPen ∨ p ∈ candJem) ∧ p.Name = n) ∧ ¬ n ∈ already) ∧
    res.picked.length ≤ nP + nJ := by
  have h0 : CompProps (fun p => p ∈ candPen ∨ p ∈ candJem) already anyT
      ⟨[], [], already, anyT⟩ :=
    ⟨fun n h => absurd h (List.not_mem_nil n), List.nodup_nil,
     fun _ h => h, fun _ h => h, fun n h => absurd h (List.not_mem_nil n)⟩
  simp only [pickWithComposition] at hres
  set P : Person → Prop := fun p => p ∈ candPen ∨ p ∈ candJem with hP
  set t := nP + nJ with ht
  set a1 := pickFrom t prefer true candPen nP ⟨[], [], already, anyT⟩ with ha1
  set a2 := pickFrom t prefer true candJem nJ a1.2 with ha2
  set b1 := if a1.1 > 0 then
      pickFrom t prefer true (compRemaining a2.2 candPen) a1.1 a2.2
    else (a1.1, a2.2) with hb1
  set b2 := if a2.1 > 0 then
      pickFrom t prefer true (compRemaining b1.2 candJem) a2.1 b1.2
    else (a2.1, b1.2) with hb2
  set c1 := if ¬cfg.noRelaxB2B ∧ b1.1 > 0 then
      pickFrom t prefer false (compRemaining b2.2 candPen) b1.1 b2.2
    else (b1.1, b2.2) with hc1
  set c2 := if ¬cfg.noRelaxB2B ∧ b2.1 > 0 then
      pickFrom t prefer false (compRemaining c1.2 candJem) b2.1 c1.2
    else (b2.1, c1.2) with hc2
  have hstep1 := pickFrom_step P already anyT t prefer true candPen
    (fun p hp => Or.inl hp) nP ⟨[], [], already, anyT⟩ h0
  rw [← ha1] at hstep1
  have h1 := hstep1.1
  have l1 : a1.2.picked.length ≤ t := hstep1.2 (by simp)
  have hstep2 := pickFrom_step P already anyT t prefer true candJem
    (fun p hp => Or.inr hp) nJ a1.2 h1
  rw [← ha2] at hstep2
  have h2 := hstep2.1
  have l2 : a2.2.picked.length ≤ t := hstep2.2 l1
  have hstep3 := compStep_if P already anyT t prefer true (a1.1 > 0)
    (compRemaining a2.2 candPen)
    (fun p hp => Or.inl (mem_of_mem_compRemaining hp)) a1.1 a1.1 a2.2 h2
  rw [← hb1] at hstep3
  have h3 := hstep3.1
  have l3 : b1.2.picked.length ≤ t := hstep3.2 l2
  have hstep4 := compStep_if P already anyT t prefer true (a2.1 > 0)
    (compRemaining b1.2 candJem)
    (fun p hp => Or.inr (mem_of_mem_compRemaining hp)) a2.1 a2.1 b1.2 h3
  rw [← hb2] at hstep4
  have h4 := hstep4.1
  have l4 : b2.2.picked.length ≤ t := hstep4.2 l3
  have hstep5 := compStep_if P already anyT t prefer false
    (¬cfg.noRelaxB2B ∧ b1.1 > 0) (compRemaining b2.2 candPen)
    (fun p hp => Or.inl (mem_of_mem_compRemaining hp)) b1.1 b1.1 b2.2 h4
  rw [← hc1] at hstep5
  have h5 := hstep5.1
  have l5 : c1.2.picked.length ≤ t := hstep5.2 l4
  have hstep6 := compStep_if P already anyT t prefer false
    (¬cfg.noRelaxB2B ∧ b2.1 > 0) (compRemaining c1.2 candJem)
    (fun p hp => Or.inr (mem_of_mem_compRemaining hp)) b2.1 b2.1 c1.2 h5
  rw [← hc2] at hstep6
  have h6 := hstep6.1
  have l6 : c2.2.picked.length ≤ t := hstep6.2 l5
  by_cases hD : ¬cfg.strictComposition ∧ c2.2.picked.length < t
  · rw [if_pos hD] at hres
    set merged := compRemaining c2.2 candPen ++ compRemaining c2.2 candJem
      with hmerged
    set sh := shuffle rng merged with hsh
    have hpoolD : ∀ p ∈ sh.1, P p := by
      intro p hp
      have hpm : p ∈ merged := (shuffle_perm rng merged).mem_iff.mp hp
      rcases List.mem_append.mp hpm with hp' | hp'
      · exact Or.inl (mem_of_mem_compRemaining hp')
      · exact Or.inr (mem_of_mem_compRemaining hp')
    set dres := pickFrom t prefer false sh.1 (t - c2.2.picked.length) c2.2
      with hdres
    have hstep7 := pickFrom_step P already anyT t prefer false sh.1 hpoolD
      (t - c2.2.picked.length) c2.2 h6
    rw [← hdres] at hstep7
    have h7 := hstep7.1
    have l7 : dres.2.picked.length ≤ t := hstep7.2 l6
    rcases h7 with ⟨hsub, hnd, hA, hT, horig⟩
    subst hres
    exact ⟨hsub, hnd, hA, hT, horig, l7⟩
  · rw [if_neg hD] at hres
    rcases h6 with ⟨hsub, hnd, hA, hT, horig⟩
    subst hres
    exact ⟨hsub, hnd, hA, hT, horig, l6⟩

/-- With strict composition on and a zero member quota, every picked name
comes from the elder pool: the member pool is never drawn from and the
type-agnostic Step D never runs. -/
theorem pickWithComposition_strict_penOnly (cfg : Config) (rng : Rng)
    (candPen candJem : List Person) (nP : Nat) (prefer : String → Bool)
    (already anyT : List String) (res : CompRes)
    (hstrict : cfg.strictComposition = true)
    (hres : pickWithComposition cfg rng candPen candJem nP 0 prefer already anyT = res) :
    ∀ n ∈ res.picked, (∃ p ∈ candPen, p.Name = n) ∧ ¬ n ∈ already := by
  have h0 : CompProps (fun p => p ∈ candPen) already anyT
      ⟨[], [], already, anyT⟩ :=
    ⟨fun n h => absurd h (List.not_mem_nil n), List.nodup_nil,
     fun _ h => h, fun _ h => h, fun n h => absurd h (List.not_mem_nil n)⟩
  simp only [pickWithComposition] at hres
  set P : Person → Prop := fun p => p ∈ candPen with hP
  set t := nP + 0 with ht
  set a1 := pickFrom t prefer true candPen nP ⟨[], [], already, anyT⟩ with ha1
  set a2 := pickFrom t prefer true candJem 0 a1.2 with ha2
  have ha2' : a2 = (0, a1.2) := by rw [ha2, pickFrom_zero]
  set b1 := if a1.1 > 0 then
      pickFrom t prefer true (compRemaining a2.2 candPen) a1.1 a2.2
    else (a1.1, a2.2) with hb1
  set b2 := if a2.1 > 0 then
      pickFrom t prefer true (compRemaining b1.2 candJem) a2.1 b1.2
    else (a2.1, b1.2) with hb2
  have ha21 : a2.1 = 0 := by rw [ha2']
  have hb2' : b2 = (a2.1, b1.2) := by
    rw [hb2, if_neg]
    simp [ha21]
  set c1 := if ¬cfg.noRelaxB2B ∧ b1.1 > 0 then
      pickFrom t prefer false (compRemaining b2.2 candPen) b1.1 b2.2
    else (b1.1, b2.2) with hc1
  set c2 := if ¬cfg.noRelaxB2B ∧ b2.1 > 0 then
      pickFrom t prefer false (compRemaining c1.2 candJem) b2.1 c1.2
    else (b2.1, c1.2) with hc2
  have hc2' : c2 = (b2.1, c1.2) := by
    rw [hc2, if_neg]
    simp [hb2', ha21]
  have hstep1 := pickFrom_step P already anyT t prefer true candPen
    (fun p hp => hp) nP ⟨[], [], already, anyT⟩ h0
  rw [← ha1] at hstep1
  have h1 := hstep1.1
  have h2 : CompProps P already anyT a2.2 := by rw [ha2']; exact h1
  have hstep3 := compStep_if P already anyT t prefer true (a1.1 > 0)
    (compRemaining a2.2 candPen)
    (fun p hp => mem_of_mem_compRemaining hp) a1.1 a1.1 a2.2 h2
  rw [← hb1] at hstep3
  have h3 := hstep3.1
  have h4 : CompProps P already anyT b2.2 := by rw [hb2']; exact h3
  have hstep5 := compStep_if P already anyT t prefer false
    (¬cfg.noRelaxB2B ∧ b1.1 > 0) (compRemaining b2.2 candPen)
    (fun p hp => mem_of_mem_compRemaining hp) b1.1 b1.1 b2.2 h4
  rw [← hc1] at hstep5
  have h5 := hstep5.1
  have h6 : CompProps P already anyT c2.2 := by rw [hc2']; exact h5
  rw [if_neg (by simp [hstrict])] at hres
  rcases h6 with ⟨_, _, _, _, horig⟩
  subst hres
  intro n hn
  rcases horig n hn with ⟨⟨p, hp, hpn⟩, hnA⟩
  exact ⟨⟨p, hp, hpn⟩, hnA⟩

/-! ## The slot-map invariants and their preservation by writes -/

theorem aInv_empty (S : List String) : AInv (fun _ => []) S :=
  ⟨fun _ => List.nodup_nil,
   fun _ _ n _ h => absurd h (List.not_mem_nil n),
   fun _ n h => absurd h (List.not_mem_nil n)⟩

theorem aInv_mono {a : String → List String} {S S' : List String}
    (h : AInv a S) (hss : ∀ n ∈ S, n ∈ S') : AInv a S' :=
  ⟨h.1, h.2.1, fun r n hn => hss n (h.2.2 r n hn)⟩

theorem aInv_update {a : String → List String} {S S' : List String}
    {r : String} {v : List String} (h : AInv a S) (hss : ∀ n ∈ S, n ∈ S')
    (hv : v.Nodup) (hfresh : ∀ n ∈ v, n ∈ S' ∧ ¬ n ∈ S) :
    AInv (updateFn a r v) S' := by
  rcases h with ⟨hnd, hdis, hcon⟩
  refine ⟨?_, ?_, ?_⟩
  · intro r'
    by_cases hr : r' = r
    · simpa [updateFn, hr] using hv
    · simpa [updateFn, hr] using hnd r'
  · intro r₁ r₂ n hne h1 h2
    by_cases hr1 : r₁ = r
    · have hr2 : ¬ r₂ = r := fun hc => hne (hr1.trans hc.symm)
      rw [updateFn, if_pos hr1] at h1
      rw [updateFn, if_neg hr2] at h2
      exact (hfresh n h1).2 (hcon r₂ n h2)
    · rw [updateFn, if_neg hr1] at h1
      by_cases hr2 : r₂ = r
      · rw [updateFn, if_pos hr2] at h2
        exact (hfresh n h2).2 (hcon r₁ n h1)
      · rw [updateFn, if_neg hr2] at h2
        exact hdis r₁ r₂ n hne h1 h2
  · intro r' n hn
    by_cases hr : r' = r
    · rw [updateFn, if_pos hr] at hn
      exact (hfresh n hn).1
    · rw [updateFn, if_neg hr] at hn
      exact hss n (hcon r' n hn)

theorem eInv_update {people : List Person} {maps : List RoleMap} {svc : String}
    {a : String → List String} {r : String} {v : List String}
    (h : EInv people maps svc a)
    (hv : ∀ n ∈ v, EligRole people maps svc r n) :
    EInv people maps svc (updateFn a r v) := by
  intro r' n hn
  by_cases hr : r' = r
  · rw [updateFn, if_pos hr] at hn
    exact hr ▸ hv n hn
  · rw [updateFn, if_neg hr] at hn
    exact h r' n hn

theorem distributeRows_aInv :
    ∀ (rows : List RoleMap) (picked : List String) (a : String → List String)
      (S Sf : List String), AInv a S → (∀ n ∈ S, n ∈ Sf) → picked.Nodup →
      (∀ n ∈ picked, n ∈ Sf ∧ ¬ n ∈ S) →
      AInv (distributeRows rows picked a) Sf
  | [], _, a, S, Sf, h, hss, _, _ => aInv_mono h hss
  | rm :: rest, [], a, S, Sf, h, hss, hnd, hfresh => by
    rw [distributeRows]
    exact distributeRows_aInv rest [] _ S Sf
      (aInv_update h (fun n hn => hn) List.nodup_nil
        (fun n hn => absurd hn (List.not_mem_nil n)))
      hss hnd hfresh
  | rm :: rest, n :: ns, a, S, Sf, h, hss, hnd, hfresh => by
    rw [distributeRows]
    rcases List.nodup_cons.mp hnd with ⟨hnin, hndns⟩
    refine distributeRows_aInv rest ns _ (n :: S) Sf
      (aInv_update h (fun m hm => List.mem_cons_of_mem _ hm)
        (List.nodup_singleton n) ?_) ?_ hndns ?_
    · intro m hm
      rcases List.mem_singleton.mp hm with rfl
      exact ⟨List.mem_cons_self _ _, (hfresh m (List.mem_cons_self _ _)).2⟩
    · intro m hm
      rcases List.mem_cons.mp hm with rfl | hm
      · exact (hfresh m (List.mem_cons_self _ _)).1
      · exact hss m hm
    · intro m hm
      refine ⟨(hfresh m (List.mem_cons_of_mem _ hm)).1, ?_⟩
      intro hc
      rcases List.mem_cons.mp hc with rfl | hc
      · exact hnin hm
      · exact (hfresh m (List.mem_cons_of_mem _ hm)).2 hc

theorem distributeRows_eInv {people : List Person} {maps : List RoleMap}
    {svc : String} :
    ∀ (rows : List RoleMap) (picked : List String) (a : String → List String),
      EInv people maps svc a →
      (∀ rm ∈ rows, ∀ n ∈ picked, EligRole people maps svc rm.Role n) →
      EInv people maps svc (distributeRows rows picked a)
  | [], _, a, h, _ => h
  | rm :: rest, [], a, h, helig => by
    rw [distributeRows]
    exact distributeRows_eInv rest [] _
      (eInv_update h (fun n hn => absurd hn (List.not_mem_nil n)))
      (fun rm' hrm' n hn => helig rm' (List.mem_cons_of_mem _ hrm') n hn)
  | rm :: rest, n :: ns, a, h, helig => by
    rw [distributeRows]
    refine distributeRows_eInv rest ns _
      (eInv_update h ?_) ?_
    · intro m hm
      rcases List.mem_singleton.mp hm with rfl
      exact helig rm (List.mem_cons_self _ _) m (List.mem_cons_self _ _)
    · intro rm' hrm' m hm
      exact helig rm' (List.mem_cons_of_mem _ hrm') m (List.mem_cons_of_mem _ hm)

theorem distributeRowsLast_fst (d : Nat) :
    ∀ (rows : List RoleMap) (picked : List String) (a : String → List String)
      (last : String → Option Nat),
      (distributeRowsLast d rows picked a last).1 = distributeRows rows picked a
  | [], _, _, _ => rfl
  | rm :: rest, [], a, last => by
    rw [distributeRowsLast, distributeRows]
    exact distributeRowsLast_fst d rest [] _ last
  | rm :: rest, n :: ns, a, last => by
    rw [distributeRowsLast, distributeRows]
    exact distributeRowsLast_fst d rest ns _ _

theorem distributeRowsLast_pres (d : Nat) {n : String} :
    ∀ (rows : List RoleMap) (picked : List String) (a : String → List String)
      (last : String → Option Nat), last n = some d →
      (distributeRowsLast d rows picked a last).2 n = some d
  | [], _, _, _, h => h
  | rm :: rest, [], a, last, h => by
    rw [distributeRowsLast]
    exact distributeRowsLast_pres d rest [] _ last h
  | rm :: rest, m :: ns, a, last, h => by
    rw [distributeRowsLast]
    refine distributeRowsLast_pres d rest ns _ _ ?_
    by_cases hm : n = m
    · simp [updateLast, hm]
    · simpa [updateLast, hm] using h

theorem distributeRowsLast_mem (d : Nat) {n : String} :
    ∀ (rows : List RoleMap) (picked : List String) (a : String → List String)
      (last : String → Option Nat), n ∈ picked →
      picked.length ≤ rows.length →
      (distributeRowsLast d rows picked a last).2 n = some d
  | [], picked, _, _, hmem, hlen => by
    have : picked = [] := List.length_eq_zero.mp (Nat.le_zero.mp hlen)
    exact absurd (this ▸ hmem) (List.not_mem_nil n)
  | rm :: rest, [], a, last, hmem, _ => absurd hmem (List.not_mem_nil n)
  | rm :: rest, m :: ns, a, last, hmem, hlen => by
    rw [distributeRowsLast]
    rcases List.mem_cons.mp hmem with rfl | hmem'
    · exact distributeRowsLast_pres d rest ns _ _ (by simp [updateLast])
    · exact distributeRowsLast_mem d rest ns _ _ hmem'
        (Nat.le_of_succ_le_succ (by simpa using hlen))

/-! ## Lemmas about role grouping -/

theorem mem_grouped {maps : List RoleMap} {svc key : String} {m : RoleMap}
    (h : m ∈ (groupMappingsForService maps svc).1 key) :
    m ∈ maps ∧ (m.Service = "both" ∨ m.Service = svc) ∧ baseRole m.Role = key := by
  rcases List.mem_filter.mp h with ⟨hm, hcond⟩
  simp only [Bool.and_eq_true, Bool.or_eq_true, beq_iff_eq] at hcond
  exact ⟨hm, hcond.1, hcond.2.2⟩

theorem mem_gm_others {maps : List RoleMap} {svc : String} {m : RoleMap}
    (h : m ∈ (groupMappingsForService maps svc).2) :
    m ∈ maps ∧ (m.Service = "both" ∨ m.Service = svc) := by
  rcases List.mem_filter.mp h with ⟨hm, hcond⟩
  simp only [Bool.and_eq_true, Bool.or_eq_true, beq_iff_eq] at hcond
  exact ⟨hm, hcond.1⟩

/-! ## The two-pass pick used by phases 1, 3 and 4 -/

theorem twoPass_props (d slots : Nat) (chk1 up1 chk2 up2 : Bool)
    (prev : Option Nat) (cands : List String) (A T : List String)
    (last0 : String → Option Nat) (c : Prop) [Decidable c] (st2 : PickSt)
    (hst : (if c then
        pickPass d slots chk2 up2 prev cands
          (pickPass d slots chk1 up1 prev cands ⟨[], A, T, last0⟩)
      else pickPass d slots chk1 up1 prev cands ⟨[], A, T, last0⟩) = st2) :
    (∀ n ∈ st2.picked, n ∈ st2.already) ∧ st2.picked.Nodup ∧
    (∀ n ∈ A, n ∈ st2.already) ∧ (∀ n ∈ T, n ∈ st2.anyT) ∧
    (∀ n ∈ st2.picked, n ∈ cands ∧ ¬ n ∈ A) ∧
    st2.picked.length ≤ slots := by
  have h1 := pickPass_props d slots chk1 up1 prev cands ⟨[], A, T, last0⟩
    (fun n h => absurd h (List.not_mem_nil n)) List.nodup_nil
  rcases h1 with ⟨h1sub, h1nd, h1A, h1T, h1or, h1len⟩
  rw [← hst]
  split
  · have h2 := pickPass_props d slots chk2 up2 prev cands
      (pickPass d slots chk1 up1 prev cands ⟨[], A, T, last0⟩) h1sub h1nd
    rcases h2 with ⟨h2sub, h2nd, h2A, h2T, h2or, h2len⟩
    refine ⟨h2sub, h2nd, fun n hn => h2A n (h1A n hn),
      fun n hn => h2T n (h1T n hn), ?_, h2len (h1len (Nat.zero_le _))⟩
    intro n hn
    rcases h2or n hn with h | ⟨hc, ha⟩
    · rcases h1or n h with h' | ⟨hc', ha'⟩
      · exact absurd h' (List.not_mem_nil n)
      · exact ⟨hc', ha'⟩
    · exact ⟨hc, fun hmem => ha (h1A n hmem)⟩
  · exact ⟨h1sub, h1nd, h1A, h1T,
      fun n hn => by
        rcases h1or n hn with h | ⟨hc, ha⟩
        · exact absurd h (List.not_mem_nil n)
        · exact ⟨hc, ha⟩,
      h1len (Nat.zero_le _)⟩

/-! ## Phase lemmas: each phase preserves the service invariant -/

theorem mpRow_inv (people : List Person) (maps : List RoleMap) (svc : String)
    (prev : Option Nat) (d : Nat) (m : RoleMap) (s : SvcSt)
    (hm : m ∈ maps) (hsvc : m.Service = "both" ∨ m.Service = svc)
    (hinv : SvcInv people maps svc s) :
    SvcInv people maps svc (mpRow people prev d m s) ∧
    (∀ n ∈ s.already, n ∈ (mpRow people prev d m s).already) ∧
    (∀ n ∈ s.anyT, n ∈ (mpRow people prev d m s).anyT) := by
  rcases hinv with ⟨hainv, heinv⟩
  simp only [mpRow]
  set slots := if m.Slots10 > 0 then m.Slots10 else 1 with hslots
  set sh := shuffle s.rng (filterCandidates people m.SourceColumn true) with hsh
  set st1 := pickPass d slots true true prev sh.1 ⟨[], s.already, s.anyT, s.last⟩
    with hst1
  set st2 := if st1.picked.length < slots then
      pickPass d slots false false prev sh.1 st1
    else st1 with hst2
  have htp := twoPass_props d slots true true false false prev sh.1
    s.already s.anyT s.last (st1.picked.length < slots) st2 (by rw [hst2, hst1])
  rcases htp with ⟨hsub, hnd, hA, hT, horig, _⟩
  have hcands : ∀ n ∈ sh.1, n ∈ filterCandidates people m.SourceColumn true :=
    fun n hn => (shuffle_perm _ _).mem_iff.mp hn
  refine ⟨⟨?_, ?_⟩, hA, hT⟩
  · exact aInv_update hainv hA hnd
      (fun n hn => ⟨hsub n hn, (horig n hn).2⟩)
  · refine eInv_update heinv ?_
    intro n hn
    exact ⟨m, hm, hsvc, rfl,
      isEligible_of_mem_filterCandidates (hcands n (horig n hn).1)⟩

theorem mpPhase_inv (people : List Person) (maps : List RoleMap) (svc : String)
    (prev : Option Nat) (d : Nat) :
    ∀ (mpRows : List RoleMap) (s : SvcSt),
      (∀ m ∈ mpRows, m ∈ maps ∧ (m.Service = "both" ∨ m.Service = svc)) →
      SvcInv people maps svc s →
      SvcInv people maps svc (mpPhase people prev d mpRows s) ∧
      (∀ n ∈ s.already, n ∈ (mpPhase people prev d mpRows s).already) ∧
      (∀ n ∈ s.anyT, n ∈ (mpPhase people prev d mpRows s).anyT)
  | [], s, _, hinv => ⟨hinv, fun _ h => h, fun _ h => h⟩
  | m :: rest, s, hrows, hinv => by
    have hstep := mpRow_inv people maps svc prev d m s
      (hrows m (List.mem_cons_self _ _)).1 (hrows m (List.mem_cons_self _ _)).2 hinv
    have hrest := mpPhase_inv people maps svc prev d rest (mpRow people prev d m s)
      (fun m' hm' => hrows m' (List.mem_cons_of_mem _ hm')) hstep.1
    refine ⟨hrest.1, ?_, ?_⟩
    · intro n hn
      exact hrest.2.1 n (hstep.2.1 n hn)
    · intro n hn
      exact hrest.2.2 n (hstep.2.2 n hn)

theorem poolsFold_sub (people : List Person) :
    ∀ (rows : List RoleMap) (acc : List String × List String) (n : String),
      (n ∈ (rows.foldl
          (fun acc rm =>
            (acc.1 ++ (filterCandidatesSplit people rm.SourceColumn).1,
             acc.2 ++ (filterCandidatesSplit people rm.SourceColumn).2)) acc).1 →
        n ∈ acc.1 ∨ ∃ rm ∈ rows, n ∈ (filterCandidatesSplit people rm.SourceColumn).1) ∧
      (n ∈ (rows.foldl
          (fun acc rm =>
            (acc.1 ++ (filterCandidatesSplit people rm.SourceColumn).1,
             acc.2 ++ (filterCandidatesSplit people rm.SourceColumn).2)) acc).2 →
        n ∈ acc.2 ∨ ∃ rm ∈ rows, n ∈ (filterCandidatesSplit people rm.SourceColumn).2)
  | [], acc, n => ⟨fun h => Or.inl h, fun h => Or.inl h⟩
  | rm :: rest, acc, n => by
    constructor
    · intro h
      rcases (poolsFold_sub people rest _ n).1 h with h' | ⟨rm', hrm', hmem⟩
      · rcases List.mem_append.mp h' with h'' | h''
        · exact Or.inl h''
        · exact Or.inr ⟨rm, List.mem_cons_self _ _, h''⟩
      · exact Or.inr ⟨rm', List.mem_cons_of_mem _ hrm', hmem⟩
    · intro h
      rcases (poolsFold_sub people rest _ n).2 h with h' | ⟨rm', hrm', hmem⟩
      · rcases List.mem_append.mp h' with h'' | h''
        · exact Or.inl h''
        · exact Or.inr ⟨rm, List.mem_cons_self _ _, h''⟩
      · exact Or.inr ⟨rm', List.mem_cons_of_mem _ hrm', hmem⟩

theorem compCategory_inv (cfg : Config) (people : List Person)
    (maps : List RoleMap) (svc : String) (prev : Option Nat) (d : Nat)
    (key : String) (rows : List RoleMap) (s : SvcSt)
    (hrows : ∀ rm ∈ rows, rm ∈ maps ∧ (rm.Service = "both" ∨ rm.Service = svc) ∧
      baseRole rm.Role = key)
    (hinv : SvcInv people maps svc s) :
    SvcInv people maps svc (compCategory cfg people prev d key rows s) ∧
    (∀ n ∈ s.already, n ∈ (compCategory cfg people prev d key rows s).already) ∧
    (∀ n ∈ s.anyT, n ∈ (compCategory cfg people prev d key rows s).anyT) := by
  rcases hinv with ⟨hainv, heinv⟩
  simp only [compCategory]
  set needs := compNeeds cfg key with hneeds
  set totalNeed := min (needs.1 + needs.2) rows.length with htotal
  set pools := rows.foldl
    (fun acc rm =>
      (acc.1 ++ (filterCandidatesSplit people rm.SourceColumn).1,
       acc.2 ++ (filterCandidatesSplit people rm.SourceColumn).2))
    (([] : List String), ([] : List String)) with hpools
  set candPen := (uniq pools.1).map (fun n => Person.mk n true []) with hcandPen
  set candJem := (uniq pools.2).map (fun n => Person.mk n false []) with hcandJem
  set shPen := shuffle s.rng candPen with hshPen
  set shJem := shuffle shPen.2 candJem with hshJem
  set res := pickWithComposition cfg shJem.2 shPen.1 shJem.1 needs.1 needs.2
    (mkPrefer prev s.last) s.already s.anyT with hres
  have hprops := pickWithComposition_props cfg shJem.2 shPen.1 shJem.1
    needs.1 needs.2 (mkPrefer prev s.last) s.already s.anyT res hres.symm
  rcases hprops with ⟨hsub, hnd, hA, hT, horig, _⟩
  set picked := if res.picked.length > totalNeed then res.picked.take totalNeed
    else res.picked with hpicked
  have hpsub : ∀ n ∈ picked, n ∈ res.picked := by
    intro n hn
    rw [hpicked] at hn
    split at hn
    · exact List.mem_of_mem_take hn
    · exact hn
  have hpnd : picked.Nodup := by
    rw [hpicked]
    split
    · exact hnd.sublist (List.take_sublist _ _)
    · exact hnd
  -- eligibility of every picked name, for any row of this category
  have helig : ∀ rm ∈ rows, ∀ n ∈ picked, EligRole people maps svc rm.Role n := by
    intro rm hrm n hn
    rcases horig n (hpsub n hn) with ⟨⟨p, hp, hpn⟩, _⟩
    rcases hp with hp | hp
    · have hpc : p ∈ candPen := (shuffle_perm _ _).mem_iff.mp hp
      rcases List.mem_map.mp hpc with ⟨nm, hnm, hpe⟩
      have hnm' : nm ∈ pools.1 := mem_uniq.mp hnm
      rcases ((poolsFold_sub people rows _ nm).1 hnm').resolve_left
        (List.not_mem_nil nm) with ⟨rm', hrm', hmem⟩
      rcases mem_filterCandidatesSplit_pen.mp hmem with ⟨q, hq, hqn, _, hqmark⟩
      have hn_eq : nm = n := by rw [← hpn, ← hpe]
      exact ⟨rm', (hrows rm' hrm').1, (hrows rm' hrm').2.1,
        ((hrows rm' hrm').2.2).trans ((hrows rm hrm).2.2).symm,
        ⟨q, hq, hn_eq ▸ hqn, hqmark⟩⟩
    · have hpc : p ∈ candJem := (shuffle_perm _ _).mem_iff.mp hp
      rcases List.mem_map.mp hpc with ⟨nm, hnm, hpe⟩
      have hnm' : nm ∈ pools.2 := mem_uniq.mp hnm
      rcases ((poolsFold_sub people rows _ nm).2 hnm').resolve_left
        (List.not_mem_nil nm) with ⟨rm', hrm', hmem⟩
      rcases mem_filterCandidatesSplit_jem.mp hmem with ⟨q, hq, hqn, _, hqmark⟩
      have hn_eq : nm = n := by rw [← hpn, ← hpe]
      exact ⟨rm', (hrows rm' hrm').1, (hrows rm' hrm').2.1,
        ((hrows rm' hrm').2.2).trans ((hrows rm hrm).2.2).symm,
        ⟨q, hq, hn_eq ▸ hqn, hqmark⟩⟩
  refine ⟨⟨?_, ?_⟩, hA, hT⟩
  · rw [distributeRowsLast_fst]
    exact distributeRows_aInv rows picked s.roleA s.already res.already
      hainv hA hpnd
      (fun n hn => ⟨(hsub n (hpsub n hn)).1, (horig n (hpsub n hn)).2⟩)
  · rw [distributeRowsLast_fst]
    exact distributeRows_eInv rows picked s.roleA heinv helig

theorem compPhase_inv (cfg : Config) (people : List Person)
    (maps : List RoleMap) (svc : String) (prev : Option Nat) (d : Nat)
    (grouped : String → List RoleMap) (s : SvcSt)
    (hg : ∀ key, ∀ rm ∈ grouped key, rm ∈ maps ∧
      (rm.Service = "both" ∨ rm.Service = svc) ∧ baseRole rm.Role = key)
    (hinv : SvcInv people maps svc s) :
    SvcInv people maps svc (compPhase cfg people prev d grouped s) ∧
    (∀ n ∈ s.already, n ∈ (compPhase cfg people prev d grouped s).already) ∧
    (∀ n ∈ s.anyT, n ∈ (compPhase cfg people prev d grouped s).anyT) := by
  have hstep : ∀ (key : String) (s' : SvcSt), SvcInv people maps svc s' →
      SvcInv people maps svc
        (if (grouped key).isEmpty then s'
         else compCategory cfg people prev d key (grouped key) s') ∧
      (∀ n ∈ s'.already, n ∈
        (if (grouped key).isEmpty then s'
         else compCategory cfg people prev d key (grouped key) s').already) ∧
      (∀ n ∈ s'.anyT, n ∈
        (if (grouped key).isEmpty then s'
         else compCategory cfg people prev d key (grouped key) s').anyT) := by
    intro key s' hinv'
    split
    · exact ⟨hinv', fun _ h => h, fun _ h => h⟩
    · exact compCategory_inv cfg people maps svc prev d key (grouped key) s'
        (hg key) hinv'
  simp only [compPhase, List.foldl]
  have h1 := hstep "kolektan" s hinv
  have h2 := hstep "pjemaat" _ h1.1
  exact ⟨h2.1,
    fun n hn => h2.2.1 n (h1.2.1 n hn),
    fun n hn => h2.2.2 n (h1.2.2 n hn)⟩

theorem cappedGroup_inv (cfg : Config) (people : List Person)
    (maps : List RoleMap) (svc : String) (prev : Option Nat) (d : Nat)
    (key : String) (limit0 : Nat) (rows : List RoleMap) (s : SvcSt)
    (hrows : ∀ rm ∈ rows, rm ∈ maps ∧ (rm.Service = "both" ∨ rm.Service = svc) ∧
      baseRole rm.Role = key)
    (hinv : SvcInv people maps svc s) :
    SvcInv people maps svc (cappedGroup cfg people prev d limit0 rows s) ∧
    (∀ n ∈ s.already, n ∈ (cappedGroup cfg people prev d limit0 rows s).already) ∧
    (∀ n ∈ s.anyT, n ∈ (cappedGroup cfg people prev d limit0 rows s).anyT) := by
  rcases hinv with ⟨hainv, heinv⟩
  match rows, hrows with
  | [], _ => exact ⟨⟨hainv, heinv⟩, fun _ h => h, fun _ h => h⟩
  | r0 :: rest, hrows => ?_
  simp only [cappedGroup]
  set limit := min limit0 (r0 :: rest).length with hlimit
  set sh := shuffle s.rng (filterCandidates people r0.SourceColumn false) with hsh
  set st1 := pickPass d limit true true prev sh.1 ⟨[], s.already, s.anyT, s.last⟩
    with hst1
  set st2 := if ¬cfg.noRelaxB2B ∧ st1.picked.length < limit then
      pickPass d limit true false prev sh.1 st1
    else st1 with hst2
  have htp := twoPass_props d limit true true true false prev sh.1
    s.already s.anyT s.last (¬cfg.noRelaxB2B ∧ st1.picked.length < limit) st2
    (by rw [hst2, hst1])
  rcases htp with ⟨hsub, hnd, hA, hT, horig, _⟩
  have helig : ∀ rm ∈ r0 :: rest, ∀ n ∈ st2.picked,
      EligRole people maps svc rm.Role n := by
    intro rm hrm n hn
    have hcand : n ∈ filterCandidates people r0.SourceColumn false :=
      (shuffle_perm _ _).mem_iff.mp (horig n hn).1
    exact ⟨r0, (hrows r0 (List.mem_cons_self _ _)).1,
      (hrows r0 (List.mem_cons_self _ _)).2.1,
      ((hrows r0 (List.mem_cons_self _ _)).2.2).trans ((hrows rm hrm).2.2).symm,
      isEligible_of_mem_filterCandidates hcand⟩
  refine ⟨⟨?_, ?_⟩, hA, hT⟩
  · exact distributeRows_aInv (r0 :: rest) st2.picked s.roleA s.already
      st2.already hainv hA hnd
      (fun n hn => ⟨hsub n hn, (horig n hn).2⟩)
  · exact distributeRows_eInv (r0 :: rest) st2.picked s.roleA heinv helig

theorem cappedPhase_inv (cfg : Config) (people : List Person)
    (maps : List RoleMap) (svc : String) (prev : Option Nat) (d : Nat)
    (grouped : String → List RoleMap) (s : SvcSt)
    (hg : ∀ key, ∀ rm ∈ grouped key, rm ∈ maps ∧
      (rm.Service = "both" ∨ rm.Service = svc) ∧ baseRole rm.Role = key)
    (hinv : SvcInv people maps svc s) :
    SvcInv people maps svc (cappedPhase cfg people prev d grouped s) ∧
    (∀ n ∈ s.already, n ∈ (cappedPhase cfg people prev d grouped s).already) ∧
    (∀ n ∈ s.anyT, n ∈ (cappedPhase cfg people prev d grouped s).anyT) := by
  simp only [cappedPhase, List.foldl]
  have h1 := cappedGroup_inv cfg people maps svc prev d "lektor" cfg.maxLektor
    (grouped "lektor") s (hg "lektor") hinv
  have h2 := cappedGroup_inv cfg people maps svc prev d "prokantor" cfg.maxPro
    (grouped "prokantor") _ (hg "prokantor") h1.1
  have h3 := cappedGroup_inv cfg people maps svc prev d "pemusik" cfg.maxMus
    (grouped "pemusik") _ (hg "pemusik") h2.1
  exact ⟨h3.1,
    fun n hn => h3.2.1 n (h2.2.1 n (h1.2.1 n hn)),
    fun n hn => h3.2.2 n (h2.2.2 n (h1.2.2 n hn))⟩

theorem otherRow_inv (cfg : Config) (people : List Person)
    (maps : List RoleMap) (svc : String) (prev : Option Nat) (d : Nat)
    (m : RoleMap) (s : SvcSt) (hm : m ∈ maps)
    (hinv : SvcInv people maps svc s) :
    SvcInv people maps svc (otherRow cfg people prev d svc m s) ∧
    (∀ n ∈ s.already, n ∈ (otherRow cfg people prev d svc m s).already) ∧
    (∀ n ∈ s.anyT, n ∈ (otherRow cfg people prev d svc m s).anyT) := by
  rcases hinv with ⟨hainv, heinv⟩
  by_cases c1 : ¬(m.Service = "both" ∨ m.Service = svc)
  · simp only [otherRow, if_pos c1]
    exact ⟨⟨hainv, heinv⟩, fun _ h => h, fun _ h => h⟩
  · by_cases c2 : svc = "07" ∧ isMajelisPendamping m.Role
    · simp only [otherRow, if_neg c1, if_pos c2]
      exact ⟨⟨hainv, heinv⟩, fun _ h => h, fun _ h => h⟩
    · simp only [otherRow, if_neg c1, if_neg c2]
      set slots0 := defaultSlotsForRole m.Role svc cfg.maxLektor cfg.maxPro
        cfg.maxMus with hslots0
      set slots1 := if svc = "07" ∧ m.Slots07 > 0 then m.Slots07 else slots0
        with hslots1
      set slots := if svc = "10" ∧ m.Slots10 > 0 then m.Slots10 else slots1
        with hslots
      set sh := shuffle s.rng
        (filterCandidates people m.SourceColumn (isMajelisPendamping m.Role))
        with hsh
      set st1 := pickPass d slots true true prev sh.1
        ⟨[], s.already, s.anyT, s.last⟩ with hst1
      set st2 := if ¬cfg.noRelaxB2B ∧ st1.picked.length < slots then
          pickPass d slots true false prev sh.1 st1
        else st1 with hst2
      have htp := twoPass_props d slots true true true false prev sh.1
        s.already s.anyT s.last (¬cfg.noRelaxB2B ∧ st1.picked.length < slots)
        st2 (by rw [hst2, hst1])
      rcases htp with ⟨hsub, hnd, hA, hT, horig, _⟩
      refine ⟨⟨?_, ?_⟩, hA, hT⟩
      · exact aInv_update hainv hA hnd
          (fun n hn => ⟨hsub n hn, (horig n hn).2⟩)
      · refine eInv_update heinv ?_
        intro n hn
        have hcand : n ∈ filterCandidates people m.SourceColumn
            (isMajelisPendamping m.Role) :=
          (shuffle_perm _ _).mem_iff.mp (horig n hn).1
        exact ⟨m, hm, not_not.mp c1, rfl,
          isEligible_of_mem_filterCandidates hcand⟩

theorem othersPhase_inv (cfg : Config) (people : List Person)
    (maps : List RoleMap) (svc : String) (prev : Option Nat) (d : Nat) :
    ∀ (otherNonMP : List RoleMap) (s : SvcSt),
      (∀ m ∈ otherNonMP, m ∈ maps) →
      SvcInv people maps svc s →
      SvcInv people maps svc (othersPhase cfg people prev d svc otherNonMP s) ∧
      (∀ n ∈ s.already,
        n ∈ (othersPhase cfg people prev d svc otherNonMP s).already) ∧
      (∀ n ∈ s.anyT,
        n ∈ (othersPhase cfg people prev d svc otherNonMP s).anyT)
  | [], s, _, hinv => ⟨hinv, fun _ h => h, fun _ h => h⟩
  | m :: rest, s, hrows, hinv => by
    have hstep := otherRow_inv cfg people maps svc prev d m s
      (hrows m (List.mem_cons_self _ _)) hinv
    have hrest := othersPhase_inv cfg people maps svc prev d rest
      (otherRow cfg people prev d svc m s)
      (fun m' hm' => hrows m' (List.mem_cons_of_mem _ hm')) hstep.1
    exact ⟨hrest.1,
      fun n hn => hrest.2.1 n (hstep.2.1 n hn),
      fun n hn => hrest.2.2 n (hstep.2.2 n hn)⟩

theorem svcPhases_inv (cfg : Config) (people : List Person)
    (maps : List RoleMap) (svc : String) (prev : Option Nat) (d : Nat)
    (s : SvcSt) (hinv : SvcInv people maps svc s) :
    SvcInv people maps svc (svcPhases cfg people maps prev d svc s) ∧
    (∀ n ∈ s.already, n ∈ (svcPhases cfg people maps prev d svc s).already) ∧
    (∀ n ∈ s.anyT, n ∈ (svcPhases cfg people maps prev d svc s).anyT) := by
  simp only [svcPhases]
  set gm := groupMappingsForService maps svc with hgm
  set svcOthers := gm.2.filter
    (fun m => m.Service = "both" ∨ m.Service = svc) with hsvcOthers
  set mpRows := svcOthers.filter (fun m => isMajelisPendamping m.Role)
    with hmpRows
  set otherNonMP := svcOthers.filter (fun m => ¬ isMajelisPendamping m.Role)
    with hotherNonMP
  have hmp : ∀ m ∈ mpRows, m ∈ maps ∧ (m.Service = "both" ∨ m.Service = svc) := by
    intro m hm
    have h1 : m ∈ svcOthers := (List.mem_filter.mp hm).1
    have h2 : m ∈ gm.2 := (List.mem_filter.mp h1).1
    exact mem_gm_others h2
  have hoth : ∀ m ∈ otherNonMP, m ∈ maps := by
    intro m hm
    have h1 : m ∈ svcOthers := (List.mem_filter.mp hm).1
    have h2 : m ∈ gm.2 := (List.mem_filter.mp h1).1
    exact (mem_gm_others h2).1
  have hg : ∀ key, ∀ rm ∈ gm.1 key, rm ∈ maps ∧
      (rm.Service = "both" ∨ rm.Service = svc) ∧ baseRole rm.Role = key :=
    fun _ _ hrm => mem_grouped hrm
  have h1 : SvcInv people maps svc
        (if svc = "10" ∧ ¬ mpRows.isEmpty then mpPhase people prev d mpRows s
         else s) ∧
      (∀ n ∈ s.already, n ∈
        (if svc = "10" ∧ ¬ mpRows.isEmpty then mpPhase people prev d mpRows s
         else s).already) ∧
      (∀ n ∈ s.anyT, n ∈
        (if svc = "10" ∧ ¬ mpRows.isEmpty then mpPhase people prev d mpRows s
         else s).anyT) := by
    split
    · exact mpPhase_inv people maps svc prev d mpRows s hmp hinv
    · exact ⟨hinv, fun _ h => h, fun _ h => h⟩
  have h2 := compPhase_inv cfg people maps svc prev d gm.1 _ hg h1.1
  have h3 := cappedPhase_inv cfg people maps svc prev d gm.1 _ hg h2.1
  have h4 := othersPhase_inv cfg people maps svc prev d otherNonMP _ hoth h3.1
  exact ⟨h4.1,
    fun n hn => h4.2.1 n (h3.2.1 n (h2.2.1 n (h1.2.1 n hn))),
    fun n hn => h4.2.2 n (h3.2.2 n (h2.2.2 n (h1.2.2 n hn)))⟩

/-! ## Driver lemmas -/

theorem noDouble_of_aInv {a : String → List String} {S : List String}
    (h : AInv a S) : NoDouble a := ⟨h.1, h.2.1⟩

theorem noDouble_ptwise {a b : String → List String}
    (h : ∀ r, a r = b r) (hb : NoDouble b) : NoDouble a := by
  refine ⟨fun r => ?_, fun r₁ r₂ n hne h1 h2 => ?_⟩
  · rw [h r]; exact hb.1 r
  · rw [h r₁] at h1; rw [h r₂] at h2
    exact hb.2 r₁ r₂ n hne h1 h2

theorem eInv_ptwise {people : List Person} {maps : List RoleMap} {svc : String}
    {a b : String → List String} (h : ∀ r, a r = b r)
    (hb : EInv people maps svc b) : EInv people maps svc a := by
  intro r n hn
  rw [h r] at hn
  exact hb r n hn

theorem aInv_of_empty {a : String → List String} (h : ∀ r, a r = [])
    (S : List String) : AInv a S := by
  refine ⟨fun r => ?_, fun r₁ r₂ n _ h1 _ => ?_, fun r n hn => ?_⟩
  · rw [h r]; exact List.nodup_nil
  · rw [h r₁] at h1; exact absurd h1 (List.not_mem_nil n)
  · rw [h r] at hn; exact absurd hn (List.not_mem_nil n)

theorem eInv_of_empty {people : List Person} {maps : List RoleMap}
    {svc : String} {a : String → List String} (h : ∀ r, a r = []) :
    EInv people maps svc a := by
  intro r n hn
  rw [h r] at hn
  exact absurd hn (List.not_mem_nil n)

theorem processService07_inv (cfg : Config) (people : List Person)
    (maps : List RoleMap) (prev : Option Nat) (d : Nat) (ds : DaySt)
    (h : DayInv people maps ds) :
    DayInv people maps (processService cfg people maps prev d "07" ds) ∧
    (processService cfg people maps prev d "07" ds).a10 = ds.a10 ∧
    (processService cfg people maps prev d "07" ds).s10 = ds.s10 := by
  rcases h with ⟨h07, he07, h10, he10⟩
  simp only [processService]
  rw [if_pos trivial]
  have hsvc := svcPhases_inv cfg people maps "07" prev d
    ⟨ds.a07, ds.s07, ds.anyT, ds.last, ds.rng⟩ ⟨h07, he07⟩
  exact ⟨⟨hsvc.1.1, hsvc.1.2, h10, he10⟩, rfl, rfl⟩

theorem processService10_inv (cfg : Config) (people : List Person)
    (maps : List RoleMap) (prev : Option Nat) (d : Nat) (ds : DaySt)
    (h : DayInv people maps ds) :
    DayInv people maps (processService cfg people maps prev d "10" ds) ∧
    (processService cfg people maps prev d "10" ds).a07 = ds.a07 ∧
    (processService cfg people maps prev d "10" ds).s07 = ds.s07 := by
  rcases h with ⟨h07, he07, h10, he10⟩
  simp only [processService]
  rw [if_neg (by decide : ¬("10" : String) = "07")]
  have hsvc := svcPhases_inv cfg people maps "10" prev d
    ⟨ds.a10, ds.s10, ds.anyT, ds.last, ds.rng⟩ ⟨h10, he10⟩
  exact ⟨⟨h07, he07, hsvc.1.1, hsvc.1.2⟩, rfl, rfl⟩

theorem processDate_inv (cfg : Config) (people : List Person)
    (maps : List RoleMap) (prev : Option Nat) (d : Nat) (g : GenSt)
    (hempty07 : ∀ r, g.assign d "07" r = [])
    (hempty10 : ∀ r, g.assign d "10" r = []) :
    (∀ d' svc r, d' ≠ d →
      (processDate cfg people maps prev d g).assign d' svc r = g.assign d' svc r) ∧
    (∀ svc r, svc ≠ "07" → svc ≠ "10" →
      (processDate cfg people maps prev d g).assign d svc r = g.assign d svc r) ∧
    (NoDouble ((processDate cfg people maps prev d g).assign d "07") ∧
     EInv people maps "07" ((processDate cfg people maps prev d g).assign d "07")) ∧
    (NoDouble ((processDate cfg people maps prev d g).assign d "10") ∧
     EInv people maps "10" ((processDate cfg people maps prev d g).assign d "10")) := by
  simp only [processDate]
  set ds0 : DaySt := ⟨g.assign d "07", g.assign d "10", [], [], [], g.last, g.rng⟩
    with hds0
  have hinv0 : DayInv people maps ds0 :=
    ⟨aInv_of_empty hempty07 _, eInv_of_empty hempty07,
     aInv_of_empty hempty10 _, eInv_of_empty hempty10⟩
  set ds1 := processService cfg people maps prev d "07" ds0 with hds1
  have h1 := processService07_inv cfg people maps prev d ds0 hinv0
  rw [← hds1] at h1
  set ds2 := processService cfg people maps prev d "10" ds1 with hds2
  have h2 := processService10_inv cfg people maps prev d ds1 h1.1
  rw [← hds2] at h2
  rcases h2.1 with ⟨h07, he07, h10, he10⟩
  refine ⟨?_, ?_, ⟨?_, ?_⟩, ⟨?_, ?_⟩⟩
  · intro d' svc r hne
    exact if_neg hne
  · intro svc r hne07 hne10
    rw [if_pos trivial, if_neg hne07, if_neg hne10]
  · refine noDouble_ptwise (b := ds2.a07) ?_ (noDouble_of_aInv h07)
    intro r
    rw [if_pos trivial, if_pos trivial]
  · refine eInv_ptwise (b := ds2.a07) ?_ he07
    intro r
    rw [if_pos trivial, if_pos trivial]
  · refine noDouble_ptwise (b := ds2.a10) ?_ (noDouble_of_aInv h10)
    intro r
    rw [if_pos trivial, if_neg (by decide : ¬("10" : String) = "07"), if_pos trivial]
  · refine eInv_ptwise (b := ds2.a10) ?_ he10
    intro r
    rw [if_pos trivial, if_neg (by decide : ¬("10" : String) = "07"), if_pos trivial]

theorem genLoop_inv (cfg : Config) (people : List Person) (maps : List RoleMap) :
    ∀ (dates : List Nat) (prev : Option Nat) (g : GenSt),
      dates.Nodup →
      (∀ d ∈ dates, ∀ svc r, g.assign d svc r = []) →
      (∀ d svc, NoDouble (g.assign d svc)) →
      (∀ d svc, EInv people maps svc (g.assign d svc)) →
      (∀ d svc, NoDouble ((genLoop cfg people maps prev dates g).assign d svc)) ∧
      (∀ d svc, EInv people maps svc
        ((genLoop cfg people maps prev dates g).assign d svc))
  | [], _, g, _, _, hnd, hei => ⟨hnd, hei⟩
  | d :: rest, prev, g, hnodup, hempty, hnd, hei => by
    rcases List.nodup_cons.mp hnodup with ⟨hdni, hndrest⟩
    have hpd := processDate_inv cfg people maps prev d g
      (fun r => hempty d (List.mem_cons_self _ _) "07" r)
      (fun r => hempty d (List.mem_cons_self _ _) "10" r)
    rcases hpd with ⟨hother, hosvc, h07, h10⟩
    set g' := processDate cfg people maps prev d g with hg'
    have hnd' : ∀ d' svc, NoDouble (g'.assign d' svc) := by
      intro d' svc
      by_cases hd : d' = d
      · subst hd
        by_cases h7 : svc = "07"
        · subst h7; exact h07.1
        · by_cases h1 : svc = "10"
          · subst h1; exact h10.1
          · exact noDouble_ptwise (fun r => hosvc svc r h7 h1) (hnd d' svc)
      · exact noDouble_ptwise (fun r => hother d' svc r hd) (hnd d' svc)
    have hei' : ∀ d' svc, EInv people maps svc (g'.assign d' svc) := by
      intro d' svc
      by_cases hd : d' = d
      · subst hd
        by_cases h7 : svc = "07"
        · subst h7; exact h07.2
        · by_cases h1 : svc = "10"
          · subst h1; exact h10.2
          · exact eInv_ptwise (fun r => hosvc svc r h7 h1) (hei d' svc)
      · exact eInv_ptwise (fun r => hother d' svc r hd) (hei d' svc)
    have hempty' : ∀ d' ∈ rest, ∀ svc r, g'.assign d' svc r = [] := by
      intro d' hd' svc r
      have hne : d' ≠ d := fun hc => hdni (hc ▸ hd')
      rw [hother d' svc r hne]
      exact hempty d' (List.mem_cons_of_mem _ hd') svc r
    exact genLoop_inv cfg people maps rest (some d) g' hndrest hempty' hnd' hei'

theorem distributeRows_congr :
    ∀ (rows₁ rows₂ : List RoleMap),
      rows₁.map RoleMap.Role = rows₂.map RoleMap.Role →
      ∀ (picked : List String) (a : String → List String),
        distributeRows rows₁ picked a = distributeRows rows₂ picked a
  | [], [], _, _, _ => rfl
  | [], _ :: _, h, _, _ => by simp at h
  | _ :: _, [], h, _, _ => by simp at h
  | r₁ :: t₁, r₂ :: t₂, h, picked, a => by
    simp only [List.map_cons, List.cons.injEq] at h
    cases picked with
    | nil =>
      rw [distributeRows, distributeRows, h.1]
      exact distributeRows_congr t₁ t₂ h.2 [] _
    | cons n ns =>
      rw [distributeRows, distributeRows, h.1]
      exact distributeRows_congr t₁ t₂ h.2 ns _

/-! ## The claims -/

/-- Claim C1: for every run of `generate` over pairwise-distinct dates,
starting (as the caller always does) from the empty assignment, no person's
name appears in more than one role slot of any one service, and no slot list
repeats a name: every pick pass skips candidates already in the current
service's assigned set, and the escort relax pass may duplicate a person only
across the two services of one date, never inside a service. -/
theorem claim1_no_double_role (cfg : Config) (people : List Person)
    (maps : List RoleMap) (dates : List Nat) (rng : Rng) (st : GenSt)
    (hok : generate cfg people maps dates emptyAssign rng = Except.ok st)
    (hnodup : dates.Nodup) :
    (∀ d svc r, (st.assign d svc r).Nodup) ∧
    (∀ d svc r₁ r₂ n, r₁ ≠ r₂ → n ∈ st.assign d svc r₁ →
      ¬ n ∈ st.assign d svc r₂) := by
  have hst : genSt cfg people maps dates emptyAssign rng = st := by
    simpa only [generate, Except.ok.injEq] using hok
  subst hst
  have h := genLoop_inv cfg people maps dates none
    ⟨emptyAssign, fun _ => none, rng⟩ hnodup
    (fun _ _ _ _ => rfl)
    (fun _ _ => noDouble_of_aInv (aInv_of_empty (fun _ => rfl) []))
    (fun _ _ => eInv_of_empty (fun _ => rfl))
  exact ⟨fun d svc r => (h.1 d svc).1 r,
    fun d svc r₁ r₂ n hne h1 h2 => (h.1 d svc).2 r₁ r₂ n hne h1 h2⟩

theorem claim1_witness :
    ("Song" : String) ≠ "Q" ∧
    "E" ∈ (genSt cfgDefault peopleMP mapsMP [1] emptyAssign rng0).assign 1 "07" "Song" ∧
    ¬ "E" ∈ (genSt cfgDefault peopleMP mapsMP [1] emptyAssign rng0).assign 1 "07" "Q" := by
  refine ⟨by decide, by decide, ?_⟩
  exact (claim1_no_double_role cfgDefault peopleMP mapsMP [1] rng0 _ rfl
    (by decide)).2 1 "07" "Song" "Q" "E" (by decide) (by decide)

/-- Claim C2: two runs of the engine on identical seed/stream, roster,
mappings, dates and initial assignment produce identical results; and every
candidate list built by the eligibility index (`filterCandidates`, and `uniq`
applied to the unioned split pools) is sorted and deduplicated before any
shuffling is applied downstream. -/
theorem claim2_determinism_and_sorted :
    (∀ (cfg₁ cfg₂ : Config) (p₁ p₂ : List Person) (m₁ m₂ : List RoleMap)
       (d₁ d₂ : List Nat) (a₁ a₂ : Nat → String → String → List String)
       (r₁ r₂ : Rng),
       cfg₁ = cfg₂ → p₁ = p₂ → m₁ = m₂ → d₁ = d₂ → a₁ = a₂ → r₁ = r₂ →
       generate cfg₁ p₁ m₁ d₁ a₁ r₁ = generate cfg₂ p₂ m₂ d₂ a₂ r₂) ∧
    (∀ (people : List Person) (src : String) (must : Bool),
      StrSorted (filterCandidates people src must) ∧
      (filterCandidates people src must).Nodup) ∧
    (∀ l : List String, StrSorted (uniq l) ∧ (uniq l).Nodup) := by
  refine ⟨?_, ?_, ?_⟩
  · rintro cfg₁ _ p₁ _ m₁ _ d₁ _ a₁ _ r₁ _ rfl rfl rfl rfl rfl rfl
    rfl
  · exact fun people src must =>
      ⟨filterCandidates_sorted people src must, filterCandidates_nodup people src must⟩
  · exact fun l => ⟨uniq_sorted l, uniq_nodup l⟩

theorem claim2_witness :
    generate cfgDefault peopleMP mapsMP [1] emptyAssign rng0 =
      generate cfgDefault peopleMP mapsMP [1] emptyAssign rng0 ∧
    StrSorted (filterCandidates peopleMP "a" false) :=
  ⟨claim2_determinism_and_sorted.1 cfgDefault cfgDefault peopleMP peopleMP
      mapsMP mapsMP [1] [1] emptyAssign emptyAssign rng0 rng0
      rfl rfl rfl rfl rfl rfl,
   (claim2_determinism_and_sorted.2.1 peopleMP "a" false).1⟩

/-- Claim C8 (amended): every name the engine writes into a role slot is
eligible under the source column of some mapping row that applies to that
service and falls in the same canonical category (`baseRole`) as the slot's
role.  (The claim's per-row form is refuted by `claim8_counterexample`: for a
capped group the pool comes from the first row's column only, and for a
composition category from the union of the category's columns, so a name in a
later row's slot need not be eligible under that row's own column.) -/
theorem claim8_amended_eligibility (cfg : Config) (people : List Person)
    (maps : List RoleMap) (dates : List Nat) (rng : Rng) (st : GenSt)
    (hok : generate cfg people maps dates emptyAssign rng = Except.ok st)
    (hnodup : dates.Nodup) :
    ∀ d svc r n, n ∈ st.assign d svc r → EligRole people maps svc r n := by
  have hst : genSt cfg people maps dates emptyAssign rng = st := by
    simpa only [generate, Except.ok.injEq] using hok
  subst hst
  have h := genLoop_inv cfg people maps dates none
    ⟨emptyAssign, fun _ => none, rng⟩ hnodup
    (fun _ _ _ _ => rfl)
    (fun _ _ => noDouble_of_aInv (aInv_of_empty (fun _ => rfl) []))
    (fun _ _ => eInv_of_empty (fun _ => rfl))
  exact fun d svc r n hn => h.2 d svc r n hn

theorem claim8_counterexample :
    (genSt cfgDefault peopleCapped mapsCapped [1] emptyAssign rng0).assign
        1 "07" "Lektor 2" = ["B"] ∧
    ¬ IsEligible peopleCapped "k2" "B" := by
  constructor
  · decide
  · unfold IsEligible
    decide

theorem claim8_witness :
    EligRole peopleMP mapsMP "07" "Song" "E" :=
  claim8_amended_eligibility cfgDefault peopleMP mapsMP [1] rng0 _ rfl
    (by decide) 1 "07" "Song" "E" (by decide)

/-- Claim C9: the engine is total and error-free — for every configuration,
roster, mapping list, date list, initial assignment and generator state,
`generate` returns `ok` (its Go counterpart's only return is `nil`); and when
no eligible candidate exists, the affected slot simply receives the empty
list instead of an error (shown on a run with an empty roster). -/
theorem claim9_error_free :
    (∀ (cfg : Config) (people : List Person) (maps : List RoleMap)
       (dates : List Nat) (a0 : Nat → String → String → List String) (rng : Rng),
       ∃ st, generate cfg people maps dates a0 rng = Except.ok st) ∧
    (genSt cfgDefault [] [⟨"Song", "a", "07", 0, 0⟩] [1] emptyAssign rng0).assign
        1 "07" "Song" = [] := by
  refine ⟨fun cfg people maps dates a0 rng => ⟨genSt cfg people maps dates a0 rng, rfl⟩, ?_⟩
  decide

/-- Claim C10: in the capped-role phase the candidate pool of a whole group
is built solely from the first row's source column — replacing every other
row's source column by anything whatsoever (keeping the role labels) does not
change the result of the phase, so the other rows' eligibility keys are never
consulted. -/
theorem claim10_capped_first_source_only (cfg : Config) (people : List Person)
    (prev : Option Nat) (d : Nat) (limit0 : Nat) (r0 : RoleMap)
    (rest : List RoleMap) (f : RoleMap → String) (s : SvcSt) :
    cappedGroup cfg people prev d limit0
      (r0 :: rest.map fun m => { m with SourceColumn := f m }) s =
    cappedGroup cfg people prev d limit0 (r0 :: rest) s := by
  simp only [cappedGroup, List.length_cons, List.length_map]
  rw [distributeRows_congr (r0 :: rest.map fun m => { m with SourceColumn := f m })
    (r0 :: rest) (by simp)]

/-- What one escort row writes into its slot: names never in the current
per-service set, always drawn from the elder-only pool of the row's source
column, without duplicates, and at most the quota (`Slots10` override, else
1) of them. -/
theorem mpRow_picked_props (people : List Person) (prev : Option Nat) (d : Nat)
    (m : RoleMap) (s : SvcSt) :
    (∀ n ∈ (mpRow people prev d m s).roleA m.Role,
      ¬ n ∈ s.already ∧ n ∈ filterCandidates people m.SourceColumn true) ∧
    ((mpRow people prev d m s).roleA m.Role).Nodup ∧
    ((mpRow people prev d m s).roleA m.Role).length ≤
      (if m.Slots10 > 0 then m.Slots10 else 1) := by
  simp only [mpRow]
  set slots := if m.Slots10 > 0 then m.Slots10 else 1 with hslots
  set sh := shuffle s.rng (filterCandidates people m.SourceColumn true) with hsh
  set st1 := pickPass d slots true true prev sh.1 ⟨[], s.already, s.anyT, s.last⟩
    with hst1
  set st2 := if st1.picked.length < slots then
      pickPass d slots false false prev sh.1 st1
    else st1 with hst2
  have htp := twoPass_props d slots true true false false prev sh.1
    s.already s.anyT s.last (st1.picked.length < slots) st2 (by rw [hst2, hst1])
  rcases htp with ⟨_, hnd, _, _, horig, hlen⟩
  have hupd : updateFn s.roleA m.Role st2.picked m.Role = st2.picked := by
    simp [updateFn]
  refine ⟨?_, ?_, ?_⟩
  · intro n hn
    rw [hupd] at hn
    exact ⟨(horig n hn).2, (shuffle_perm _ _).mem_iff.mp (horig n hn).1⟩
  · rw [hupd]; exact hnd
  · rw [hupd]; exact hlen

/-- Claim C3: the escort phase's Pass B relaxes only the per-day check — a
name written into an escort row's slot is never one already assigned in the
current (second) service, always comes from the elder-only pool of the row's
source column, and the slot never exceeds its quota; and in the concrete
relax scenario, the only eligible elder who already holds a first-service
role that day is still assigned to the escort role, with both assignments
recorded in the final Assignment. -/
theorem claim3_escort_relax :
    (∀ (people : List Person) (prev : Option Nat) (d : Nat) (m : RoleMap)
       (s : SvcSt) (n : String),
       n ∈ (mpRow people prev d m s).roleA m.Role →
       ¬ n ∈ s.already ∧ n ∈ filterCandidates people m.SourceColumn true) ∧
    (∀ (people : List Person) (prev : Option Nat) (d : Nat) (m : RoleMap)
       (s : SvcSt),
       ((mpRow people prev d m s).roleA m.Role).Nodup ∧
       ((mpRow people prev d m s).roleA m.Role).length ≤
         (if m.Slots10 > 0 then m.Slots10 else 1)) ∧
    ((genSt cfgDefault peopleMP mapsMP [1] emptyAssign rng0).assign
        1 "07" "Song" = ["E"] ∧
     (genSt cfgDefault peopleMP mapsMP [1] emptyAssign rng0).assign
        1 "10" "Majelis Pendamping" = ["E"]) := by
  refine ⟨?_, ?_, by decide, by decide⟩
  · intro people prev d m s n hn
    exact (mpRow_picked_props people prev d m s).1 n hn
  · intro people prev d m s
    exact (mpRow_picked_props people prev d m s).2

theorem claim3_witness :
    ¬ "E" ∈ ([] : List String) ∧
    "E" ∈ filterCandidates peopleMP "mp" true :=
  claim3_escort_relax.1 peopleMP none 1 ⟨"Majelis Pendamping", "mp", "10", 0, 0⟩
    ⟨fun _ => [], [], ["E"], fun _ => none, rng0⟩ "E" (by decide)

/-- Claim C4: with strict composition enabled, the composition picker never
runs the type-agnostic Step D backfill — with a zero member quota every
picked name comes from the elder pool; and in the concrete (2,0) scenario
with a single eligible elder, the category yields exactly that elder in the
first row's slot and leaves the second row empty, with no member used. -/
theorem claim4_strict_composition (cfg : Config) (rng : Rng)
    (candPen candJem : List Person) (nP : Nat) (prefer : String → Bool)
    (already anyT : List String) (res : CompRes)
    (hstrict : cfg.strictComposition = true)
    (hres : pickWithComposition cfg rng candPen candJem nP 0 prefer already anyT = res) :
    (∀ n ∈ res.picked, ∃ p ∈ candPen, p.Name = n) ∧
    ((compCategory cfgStrict peopleComp none 1 "kolektan" rowsComp svcSt0).roleA
        "Kolektan 1" = ["E"] ∧
     (compCategory cfgStrict peopleComp none 1 "kolektan" rowsComp svcSt0).roleA
        "Kolektan 2" = []) := by
  refine ⟨?_, by decide, by decide⟩
  intro n hn
  exact ((pickWithComposition_strict_penOnly cfg rng candPen candJem nP prefer
    already anyT res hstrict hres) n hn).1

theorem claim4_witness :
    cfgStrict.strictComposition = true ∧
    (∃ p ∈ ([⟨"E", true, []⟩] : List Person), p.Name = "E") :=
  ⟨rfl,
   (claim4_strict_composition cfgStrict rng0 [⟨"E", true, []⟩]
      [⟨"M", false, []⟩] 2 (fun _ => true) [] [] _ rfl rfl).1 "E" (by decide)⟩

/-- Claim C5: the fairness predicate is true exactly when there is no
immediately preceding date in the processed sequence or the person's
last-assigned date differs from that preceding date; and a single-date run
processes its one date with no preceding date, so the predicate is true for
every candidate there. -/
theorem claim5_prefer :
    (∀ (last : String → Option Nat) (n : String), mkPrefer none last n = true) ∧
    (∀ (p : Nat) (last : String → Option Nat) (n : String),
      mkPrefer (some p) last n = true ↔ ¬ last n = some p) ∧
    (∀ (cfg : Config) (people : List Person) (maps : List RoleMap) (d : Nat)
       (a0 : Nat → String → String → List String) (rng : Rng),
       generate cfg people maps [d] a0 rng =
         Except.ok (processDate cfg people maps none d ⟨a0, fun _ => none, rng⟩)) := by
  refine ⟨fun last n => rfl, ?_, fun cfg people maps d a0 rng => rfl⟩
  intro p last n
  cases hl : last n with
  | none => simp [mkPrefer, hl]
  | some t =>
    by_cases ht : t = p
    · simp [mkPrefer, hl, ht]
    · simp [mkPrefer, hl, ht]

set_option maxHeartbeats 2000000 in
/-- Claim C6: `parsePattern` implements exactly the fixed enumeration —
`"2b"` gives (elder 2, member 0, total 2), `"4e"` gives (0, 4, 4), a digit
outside 1..4 (`"5a"`) or an unknown letter (`"2z"`) is an error; universally,
for every code whose scanned digit is outside 1..4 or whose scanned letter is
not defined for that digit the parse is an error, and every successful parse
yields one of the fourteen enumerated triples. -/
theorem claim6_parsePattern :
    parsePattern "2b" = Except.ok (2, 0, 2) ∧
    parsePattern "4e" = Except.ok (0, 4, 4) ∧
    parsePattern "5a" = Except.error "jumlah di luar batas 1..4" ∧
    parsePattern "2z" = Except.error "kode tidak dikenali" ∧
    (∀ (c : String) (n : Int) (suf : String),
      scanIntStr (lowerTrim c) = some (n, suf) →
      (n < 1 ∨ n > 4 ∨
        ¬ (n, suf) ∈ [((1 : Int), "a"), (1, "b"),
            (2, "a"), (2, "b"), (2, "c"),
            (3, "a"), (3, "b"), (3, "c"), (3, "d"),
            (4, "a"), (4, "b"), (4, "c"), (4, "d"), (4, "e")]) →
      ∃ e, parsePattern c = Except.error e) ∧
    (∀ (c : String) (v : Nat × Nat × Nat), parsePattern c = Except.ok v →
      v ∈ [(1, 0, 1), (0, 1, 1), (1, 1, 2), (2, 0, 2), (0, 2, 2),
           (1, 2, 3), (2, 1, 3), (3, 0, 3), (0, 3, 3),
           (1, 3, 4), (2, 2, 4), (3, 1, 4), (4, 0, 4), (0, 4, 4)]) := by
  refine ⟨rfl, rfl, rfl, rfl, ?_, ?_⟩
  · intro c n suf hscan hbad
    simp only [parsePattern]
    split
    · exact ⟨_, rfl⟩
    · split
      · next heq =>
        rw [hscan] at heq
        exact absurd heq (by simp)
      · next n2 suf2 heq =>
        rw [hscan] at heq
        simp only [Option.some_inj, Prod.mk.injEq] at heq
        rcases heq with ⟨rfl, rfl⟩
        by_cases hr : n < 1 ∨ n > 4
        · have hcond : (decide (n < 1) || decide (n > 4)) = true := by
            rcases hr with h | h <;> simp [h]
          rw [if_pos hcond]
          exact ⟨_, rfl⟩
        · push_neg at hr
          have htab : ¬ (n, suf) ∈ [((1 : Int), "a"), (1, "b"),
              (2, "a"), (2, "b"), (2, "c"),
              (3, "a"), (3, "b"), (3, "c"), (3, "d"),
              (4, "a"), (4, "b"), (4, "c"), (4, "d"), (4, "e")] := by
            rcases hbad with h | h | h
            · exact absurd h (by omega)
            · exact absurd h (by omega)
            · exact h
          have hcond : ¬ ((decide (n < 1) || decide (n > 4)) = true) := by
            simp only [Bool.or_eq_true, decide_eq_true_eq]
            omega
          rw [if_neg hcond]
          have hn : n = 1 ∨ n = 2 ∨ n = 3 ∨ n = 4 := by omega
          rcases hn with rfl | rfl | rfl | rfl
          · have h1 : ¬ suf = "a" := fun hc => htab (by simp [hc])
            have h2 : ¬ suf = "b" := fun hc => htab (by simp [hc])
            exact ⟨"kode tidak dikenali", by simp [h1, h2]⟩
          · have h1 : ¬ suf = "a" := fun hc => htab (by simp [hc])
            have h2 : ¬ suf = "b" := fun hc => htab (by simp [hc])
            have h3 : ¬ suf = "c" := fun hc => htab (by simp [hc])
            exact ⟨"kode tidak dikenali", by simp [h1, h2, h3]⟩
          · have h1 : ¬ suf = "a" := fun hc => htab (by simp [hc])
            have h2 : ¬ suf = "b" := fun hc => htab (by simp [hc])
            have h3 : ¬ suf = "c" := fun hc => htab (by simp [hc])
            have h4 : ¬ suf = "d" := fun hc => htab (by simp [hc])
            exact ⟨"kode tidak dikenali", by simp [h1, h2, h3, h4]⟩
          · have h1 : ¬ suf = "a" := fun hc => htab (by simp [hc])
            have h2 : ¬ suf = "b" := fun hc => htab (by simp [hc])
            have h3 : ¬ suf = "c" := fun hc => htab (by simp [hc])
            have h4 : ¬ suf = "d" := fun hc => htab (by simp [hc])
            have h5 : ¬ suf = "e" := fun hc => htab (by simp [hc])
            exact ⟨"kode tidak dikenali", by simp [h1, h2, h3, h4, h5]⟩
  · intro c v h
    simp only [parsePattern] at h
    split at h
    · exact Except.noConfusion h
    · split at h
      · exact Except.noConfusion h
      · split_ifs at h <;>
          first
            | exact Except.noConfusion h
            | (injection h with h2; subst h2; decide)

theorem claim6_witness :
    parsePattern "2b" = Except.ok (2, 0, 2) ∧
    (∃ e, parsePattern "3z" = Except.error e) ∧
    (∃ e, parsePattern "6a" = Except.error e) ∧
    (2, 0, 2) ∈ [(1, 0, 1), (0, 1, 1), (1, 1, 2), (2, 0, 2), (0, 2, 2),
         (1, 2, 3), (2, 1, 3), (3, 0, 3), (0, 3, 3),
         (1, 3, 4), (2, 2, 4), (3, 1, 4), (4, 0, 4), (0, 4, 4)] :=
  ⟨claim6_parsePattern.1,
   claim6_parsePattern.2.2.2.2.1 "3z" 3 "z" (by decide) (by decide),
   claim6_parsePattern.2.2.2.2.1 "6a" 6 "a" (by decide) (by decide),
   claim6_parsePattern.2.2.2.2.2 "2b" (2, 0, 2) claim6_parsePattern.1⟩

/-- Claim C7 (amended): every name the composition picker picks is marked in
the shared per-service and per-day working sets; the Fairness Tracker date is
set to the current date for exactly the picked names that are mapped onto the
category's rows (all of them whenever the picked list fits the row count).
The original claim — that *every* picked name also gets the tracker update —
is refuted by `claim7_counterexample`: when the requested elder+member total
exceeds the category's row count, the excess picked names are marked in the
working sets but their last-assigned date is never written. -/
theorem claim7_amended (cfg : Config) (rng : Rng) (candPen candJem : List Person)
    (nP nJ : Nat) (prefer : String → Bool) (already anyT : List String)
    (res : CompRes)
    (hres : pickWithComposition cfg rng candPen candJem nP nJ prefer already anyT = res) :
    (∀ n ∈ res.picked, n ∈ res.already ∧ n ∈ res.anyT) ∧
    (∀ (d : Nat) (rows : List RoleMap) (picked : List String)
       (a : String → List String) (last : String → Option Nat) (n : String),
       n ∈ picked → picked.length ≤ rows.length →
       (distributeRowsLast d rows picked a last).2 n = some d) :=
  ⟨(pickWithComposition_props cfg rng candPen candJem nP nJ prefer already
      anyT res hres).1,
   fun d rows picked a last _ hmem hlen =>
     distributeRowsLast_mem d rows picked a last hmem hlen⟩

theorem claim7_counterexample :
    "P2" ∈ (pickWithComposition cfgDefault ⟨fun _ => 0, 2⟩
        [⟨"P1", true, []⟩, ⟨"P2", true, []⟩] [] 2 0
        (mkPrefer none fun _ => none) [] []).picked ∧
    "P2" ∈ (compCategory cfgDefault peopleTwoPen none 1 "kolektan" rowsOnePen
        svcSt0).already ∧
    (compCategory cfgDefault peopleTwoPen none 1 "kolektan" rowsOnePen
        svcSt0).last "P2" = none := by
  refine ⟨by decide, by decide, by decide⟩

theorem claim7_witness :
    "P1" ∈ (pickWithComposition cfgDefault ⟨fun _ => 0, 2⟩
        [⟨"P1", true, []⟩, ⟨"P2", true, []⟩] [] 2 0
        (mkPrefer none fun _ => none) [] []).already ∧
    (distributeRowsLast 1 rowsOnePen ["P1"] (fun _ => [])
        (fun _ => none)).2 "P1" = some 1 := by
  constructor
  · exact ((claim7_amended cfgDefault ⟨fun _ => 0, 2⟩
      [⟨"P1", true, []⟩, ⟨"P2", true, []⟩] [] 2 0
      (mkPrefer none fun _ => none) [] [] _ rfl).1 "P1" (by decide)).1
  · exact (claim7_amended cfgDefault ⟨fun _ => 0, 2⟩
      [⟨"P1", true, []⟩, ⟨"P2", true, []⟩] [] 2 0
      (mkPrefer none fun _ => none) [] [] _ rfl).2 1 rowsOnePen ["P1"]
      (fun _ => []) (fun _ => none) "P1" (by decide) (by decide)

end Scheduler

